import Mathlib

/-!
Verification of the port-connection and rendezvous core of the `limbus`
dataflow library (`limbus/core/param.py`).

The embedding models:

* Python type expressions (`PyType`) as far as the library inspects them
  (`typing.get_origin` / `typing.get_args` / `inspect.isclass`), the
  `typeguard.check_type` runtime predicate (`typeCheck`), and the function
  `_check_subscriptable`.
* The mutable object graph of `Param` as an explicit state `PState`:
  `Container` objects live in a heap addressed by cell ids, each port holds a
  type, a container (`Cont`), and the `_refs` mapping from optional own-side
  index to a set of `Reference` records.  `asyncio.Event` objects are
  modelled by allocation of fresh event ids from a counter, so that "the same
  event object on both sides" becomes equality of ids.
* `Param.value`, `IterableContainer.value`, `IterableInputContainers.get_ordered`,
  `Param.ref_counter`, `Param.select`, `IterableParam` (its `__init__`,
  `index` and `ref_counter`), `Param._connect`, `Param._disconnect` and
  `Param._update_references`.  Exceptions are modelled by `PyErr`; a raising
  call returns the error together with the state as mutated up to the raise.
* The synchronous prefix of `OutputParam.send` (`psend`), which records the
  set of `consumed` events the final `gather` would await and the peers whose
  parent state would be set / checked.
* The per-edge send/receive rendezvous as a small labelled transition system
  (`RS`, `RStep`): between two `await` points a task runs atomically under
  the cooperative single-threaded scheduler, which yields exactly two atomic
  step kinds for a single producer/consumer edge.
-/

namespace Limbus

/-! ### Python type expressions and the runtime type check -/

/-- Python type expressions, as far as `param.py` inspects them.  `tInt`,
`tStr`, `tTensor` and `tClass` are plain classes (`inspect.isclass` is true,
`typing.get_origin` is `None`).  `tList t` is `List[t]` (origin `list`, a
non-abstract iterable class), `tSeq t` is `Sequence[t]` and `tIter t` is
`Iterable[t]` (abstract sequence origins), `tTuple1 t ell` is `Tuple[t]`
(for `ell = false`) or `Tuple[t, ...]` (for `ell = true`; `typing.get_args`
then yields `(t, Ellipsis)`), and `tTuple2 a b` is the fixed-arity
`Tuple[a, b]`. -/
inductive PyType where
  | tAny
  | tInt
  | tStr
  | tTensor
  | tClass (name : String)
  | tList (t : PyType)
  | tSeq (t : PyType)
  | tIter (t : PyType)
  | tTuple1 (t : PyType) (ell : Bool)
  | tTuple2 (a b : PyType)
deriving DecidableEq, Repr

/-- Translation of `_check_subscriptable` (param.py lines 98-125).  Plain
classes are rejected (`inspect.isclass`); for a typing expression the origin
must be `collections.abc.Sequence`/`Iterable` or a non-abstract class whose
instances are iterable, the argument tuple must have length 1, or length 2
containing `Ellipsis`, and its first element must be `torch.Tensor`. -/
def check_subscriptable : PyType → Bool
  | .tAny => false          -- origin is None and `inspect.isclass(None)` is false
  | .tInt => false          -- plain class
  | .tStr => false
  | .tTensor => false
  | .tClass _ => false
  | .tList t => t == .tTensor        -- get_args has length 1
  | .tSeq t => t == .tTensor         -- abstract sequence origin
  | .tIter t => t == .tTensor
  | .tTuple1 t _ => t == .tTensor    -- (t,) or (t, Ellipsis): both pass the length test
  | .tTuple2 _ _ => false            -- length-2 args without Ellipsis

/-- Subscriptability as the specification words it: a variable-length
homogeneous sequence of tensors, namely `Sequence[Tensor]`,
`Iterable[Tensor]`, `List[Tensor]` or `Tuple[Tensor, ...]`.  This definition
follows the spec text and exists to be compared with `check_subscriptable`,
which is translated from the source. -/
def specSubscriptable : PyType → Bool
  | .tList t => t == .tTensor
  | .tSeq t => t == .tTensor
  | .tIter t => t == .tTensor
  | .tTuple1 t ell => t == .tTensor && ell
  | _ => false

/-- Translation of `typing.get_args(tp)[0]`: `none` when the argument tuple
is empty (then the Python subscript raises `IndexError`). -/
def getArgs0 : PyType → Option PyType
  | .tList t => some t
  | .tSeq t => some t
  | .tIter t => some t
  | .tTuple1 t _ => some t
  | .tTuple2 a _ => some a
  | _ => none

/-! ### Values, containers and cells -/

/-- References to `Container` objects as they appear as backings of
`IterableContainer`s: either a shared heap cell (a port's own `Container`)
or the anonymous `Container(None)` created by `IterableParam.__init__` when
the base param already holds an `IterableInputContainers` (that container is
never shared nor mutated, so a constant marker is faithful). -/
inductive CRef where
  | heapCell (c : Nat)
  | nullCont
deriving DecidableEq, Repr

/-- Backing of an `IterableContainer`: a `Container` or a nested
`IterableContainer(Container, index)` (nesting depth is at most 2 in the
source, see the note on `IterableContainer`). -/
inductive Back where
  | cont (r : CRef)
  | iter (r : CRef) (i : Nat)
deriving DecidableEq, Repr

/-- Model of `IterableContainer`: a backing and an index. -/
structure IterC where
  backing : Back
  index : Nat
deriving DecidableEq, Repr

/-- Runtime values.  `noValue` is the `NoValue()` sentinel stored in a fresh
`Container`; `iterC` is an `IterableContainer` stored as the *value* of a
`Container` (this is what `_connect` does for an indexed origin and a whole
destination, param.py line 391). -/
inductive PVal where
  | pNone
  | pInt (n : Int)
  | pStr (s : String)
  | pTensor (t : Nat)
  | pList (l : List PVal)
  | pTuple (l : List PVal)
  | noValue
  | iterC (ic : IterC)

/-- Discriminator for the `NoValue` sentinel (`isinstance(v, NoValue)`). -/
def PVal.isNoValue : PVal → Bool
  | .noValue => true
  | _ => false

/-- Discriminator for `isinstance(value, (Container, IterableContainer, Set))`
in `Param._set_value` (param.py line 308): values that themselves carry a
`value` attribute.  In this value model only stored `IterableContainer`s
are of that shape. -/
def PVal.isCellShaped : PVal → Bool
  | .iterC _ => true
  | _ => false

/-- Model of the `typeguard.check_type` predicate on this value model.  The
spec treats dynamic type checking as a provided predicate; this instance
covers the type surface the claims exercise. -/
def typeCheck : PyType → PVal → Bool
  | .tAny, _ => true
  | .tInt, .pInt _ => true
  | .tStr, .pStr _ => true
  | .tTensor, .pTensor _ => true
  | .tClass _, _ => false
  | .tList t, .pList l => l.attach.all fun x => typeCheck t x.1
  | .tSeq t, .pList l => l.attach.all fun x => typeCheck t x.1
  | .tSeq t, .pTuple l => l.attach.all fun x => typeCheck t x.1
  | .tIter t, .pList l => l.attach.all fun x => typeCheck t x.1
  | .tIter t, .pTuple l => l.attach.all fun x => typeCheck t x.1
  | .tTuple1 t false, .pTuple [v] => typeCheck t v
  | .tTuple1 t true, .pTuple l => l.attach.all fun x => typeCheck t x.1
  | .tTuple2 a b, .pTuple [x, y] => typeCheck a x && typeCheck b y
  | _, _ => false

/-- Python subscripting `v[i]` on a value (used by the indexed-cell reads). -/
def pindex : PVal → Nat → Option PVal
  | .pList l, i => l.get? i
  | .pTuple l, i => l.get? i
  | _, _ => none

/-! ### Edge references and ports -/

/-- Model of `Reference` (param.py lines 189-213): the peer port id, the
optional peer index, and the ids of the `sent` / `consumed` `asyncio.Event`
objects (`none` models the default `None`, used for lookup references). -/
structure Ref where
  param : Nat
  index : Option Nat
  sent : Option Nat
  consumed : Option Nat
deriving DecidableEq, Repr

/-- Equality of `Reference`s (its `__eq__`/`__hash__`): only `(param, index)`
count, the events are deliberately ignored. -/
def keyEq (a b : Ref) : Bool := decide (a.param = b.param ∧ a.index = b.index)

/-- Membership of a key-equal element (Python set containment). -/
def hasKey (l : List Ref) (r : Ref) : Bool := l.any fun y => keyEq y r

/-- Python `set.add`: a no-op when a `__eq__`-equal element is present. -/
def refsAdd (l : List Ref) (r : Ref) : List Ref :=
  if hasKey l r then l else r :: l

/-- Python `set.remove`: removes the `__eq__`-equal element, `none` models
the `KeyError` raised when there is none. -/
def refsRemove : List Ref → Ref → Option (List Ref)
  | [], _ => none
  | x :: xs, r => if keyEq x r then some xs else (refsRemove xs r).map (x :: ·)

/-- Lookup in the `_refs` dictionary (a `defaultdict(set)`, empty default). -/
def alGet : List (Option Nat × List Ref) → Option Nat → List Ref
  | [], _ => []
  | kv :: rest, k => if kv.1 = k then kv.2 else alGet rest k

/-- Pointwise update of the `_refs` dictionary at one key. -/
def alUpdate (m : List (Option Nat × List Ref)) (k : Option Nat)
    (f : List Ref → List Ref) : List (Option Nat × List Ref) :=
  match m with
  | [] => [(k, f [])]
  | kv :: rest => if kv.1 = k then (k, f kv.2) :: rest else kv :: alUpdate rest k f

/-- The flat set union of all reference sets (`Param.references`,
param.py lines 264-270); `refsAdd` reproduces set-union deduplication. -/
def unionRefs (m : List (Option Nat × List Ref)) : List Ref :=
  m.foldl (fun acc kv => kv.2.foldl refsAdd acc) []

/-- Container held by a port: a plain `Container` (heap cell) or an
`IterableInputContainers` aggregator.  `Param.__init__` starts every port on
a plain cell and `_connect`/`_disconnect` only ever install these two kinds
as a port's `_value`. -/
inductive Cont where
  | cell (c : Nat)
  | aggr (l : List IterC)
deriving DecidableEq, Repr

/-- Per-port state: declared type, container, `_refs`.  The
`_is_subscriptable` flag is derived once from the type in `Param.__init__`;
it is recomputed from `tp` by `check_subscriptable` here, which agrees with
storing it. -/
structure PortData where
  tp : PyType
  cont : Cont
  refs : List (Option Nat × List Ref)

/-- Global state: the ports, the heap of `Container` values, the truth value
of every `asyncio.Event`, and allocation counters for fresh cells/events. -/
structure PState where
  ports : Nat → PortData
  heap : Nat → PVal
  events : Nat → Bool
  nextCell : Nat
  nextEvent : Nat

/-- Replace one port's data. -/
def modPort (s : PState) (p : Nat) (f : PortData → PortData) : PState :=
  { s with ports := fun q => if q = p then f (s.ports q) else s.ports q }

/-- Set a port's container. -/
def setCont (s : PState) (p : Nat) (c : Cont) : PState :=
  modPort s p fun pd => { pd with cont := c }

/-- Write a value into a heap cell (mutating a shared `Container`). -/
def writeCell (s : PState) (c : Nat) (v : PVal) : PState :=
  { s with heap := fun x => if x = c then v else s.heap x }

/-- Allocate a fresh `Container(NoValue())` and install it as port `p`'s
container (the disconnect paths of `Param._disconnect`). -/
def allocNoValueCell (s : PState) (p : Nat) : PState :=
  setCont { s with nextCell := s.nextCell + 1,
                   heap := fun x => if x = s.nextCell then .noValue else s.heap x }
    p (.cell s.nextCell)

/-- Value of a `Container` reference. -/
def crefVal (h : Nat → PVal) : CRef → PVal
  | .heapCell c => h c
  | .nullCont => .pNone

/-- Value of an `IterableContainer` backing, as the `value` property of
`IterableContainer` resolves its `container` field, and as `get_ordered`
resolves each element (param.py lines 44-54 and 88-94 perform the same
dereference): a `Container` yields its value, a nested
`IterableContainer(Container, i)` yields `container.value[i]`. -/
def backValue (h : Nat → PVal) : Back → Option PVal
  | .cont r => some (crefVal h r)
  | .iter r i => pindex (crefVal h r) i

/-- Translation of the read in `Param.value` for a `Container` whose value
is an `IterableContainer` (param.py line 282):
`container.value[index]` on the stored `IterableContainer`. -/
def icValueParam (h : Nat → PVal) (ic : IterC) : Option PVal :=
  (backValue h ic.backing).bind fun v => pindex v ic.index

/-- Translation of `IterableInputContainers.get_ordered` (param.py lines
79-95): argsort the containers by their `index` (Python `sorted` is a stable
sort, so sorting positions by key and indexing is exactly a stable sort of
the containers by `index`) and resolve each container's backing.  A failing
resolution (a Python `TypeError`/`IndexError` inside the loop) makes the
whole read fail. -/
def get_ordered (h : Nat → PVal) (l : List IterC) : Option (List PVal) :=
  (l.mergeSort fun a b => decide (a.index ≤ b.index)).mapM fun ic => backValue h ic.backing

/-- Translation of `origin(res_value)` in the aggregator branch of
`Param.value` (param.py line 290): the `list` and `tuple` origins build the
corresponding value; the abstract origins `Sequence`/`Iterable` cannot be
instantiated (a `TypeError` at run time), and a plain class has origin
`None` (the preceding assert fails). -/
def originApply : PyType → List PVal → Option PVal
  | .tList _, vs => some (.pList vs)
  | .tTuple1 _ _, vs => some (.pTuple vs)
  | .tTuple2 _ _, vs => some (.pTuple vs)
  | _, _ => none

/-- Translation of the `Param.value` getter (param.py lines 276-290). -/
def paramValue (s : PState) (p : Nat) : Option PVal :=
  match (s.ports p).cont with
  | .cell c =>
    match s.heap c with
    | .iterC ic => icValueParam s.heap ic
    | v => some v
  | .aggr l => (get_ordered s.heap l).bind fun vs => originApply (s.ports p).tp vs

/-- Translation of `Param.ref_counter` (param.py lines 329-334): with an
index, the size of `_refs[index]`; without, the size of the union
`references`. -/
def refCounter (s : PState) (p : Nat) : Option Nat → Nat
  | some i => (alGet (s.ports p).refs (some i)).length
  | none => (unionRefs (s.ports p).refs).length

/-! ### Errors -/

/-- Error kinds surfaced by the modelled operations, following the spec's
error taxonomy plus the raw Python errors the code can raise. -/
inductive PyErr where
  | typeMismatch
  | immutableCell
  | illegalValue
  | unsubscriptablePort
  | fanInExceeded
  | unsupportedQuery
  | keyError
  | valueError
  | indexError
  | assertionError
  | depthExceeded
deriving DecidableEq, Repr

/-! ### IterableParam and select -/

/-- The `_iter_container` field of `IterableParam`: its type annotation
allows an `IterableInputContainers`, although `__init__` never constructs
one (the source comments on this). -/
inductive IPCont where
  | ic (x : IterC)
  | aggs (l : List IterC)
deriving DecidableEq, Repr

/-- Translation of `IterableParam.__init__` (param.py lines 130-138): on a
`Container` base the handle wraps that container; on an
`IterableInputContainers` base it wraps a fresh `Container(None)`. -/
def iterableParamInit (c : Cont) (i : Nat) : IPCont :=
  match c with
  | .cell cid => .ic ⟨.cont (.heapCell cid), i⟩
  | .aggr _ => .ic ⟨.cont .nullCont, i⟩

/-- Translation of the `IterableParam.index` property (param.py lines
145-150): raises only when `_iter_container` is an
`IterableInputContainers`. -/
def iterableParamIndex : IPCont → Except PyErr Nat
  | .aggs _ => .error .unsupportedQuery
  | .ic x => .ok x.index

/-- Translation of `IterableParam.ref_counter` (param.py lines 170-174). -/
def iterableParamRefCounter (s : PState) (p : Nat) : IPCont → Except PyErr Nat
  | .aggs _ => .error .unsupportedQuery
  | .ic x => .ok (refCounter s p (some x.index))

/-- Translation of `Param.select` (param.py lines 336-350): raises unless
the port is subscriptable, then builds an `IterableParam`. -/
def select (s : PState) (p : Nat) (i : Nat) : Except PyErr IPCont :=
  if check_subscriptable (s.ports p).tp then .ok (iterableParamInit (s.ports p).cont i)
  else .error .unsubscriptablePort

/-! ### Connect / disconnect -/

/-- A connection endpoint: a whole `Param` or an `IterableParam` handle
carrying its `IterableContainer`. -/
inductive Handle where
  | whole (p : Nat)
  | part (p : Nat) (x : IterC)

/-- Base port of an endpoint. -/
def Handle.port : Handle → Nat
  | .whole p => p
  | .part p _ => p

/-- Own-side `_refs` key of an endpoint (`None` for a whole port, the
selected index for an `IterableParam`), as `_update_references` computes
it. -/
def Handle.hidx : Handle → Option Nat
  | .whole _ => none
  | .part _ x => some x.index

/-- Endpoint construction for an operation: a whole port, or `select`
applied at an index. -/
def mkHandle (s : PState) (p : Nat) : Option Nat → Except PyErr Handle
  | none => .ok (.whole p)
  | some i =>
    match select s p i with
    | .error e => .error e
    | .ok (.ic x) => .ok (.part p x)
    | .ok (.aggs _) => .error .assertionError

/-- The type the origin's pre-known value is checked against (param.py
lines 363-367): the destination's declared type for a whole destination,
`typing.get_args(dst.param.type)[0]` for an indexed one. -/
def dstCheckedType (s : PState) : Handle → Option PyType
  | .whole d => some (s.ports d).tp
  | .part d _ => getArgs0 (s.ports d).tp

/-- The value pre-check at the top of `Param._connect` (param.py lines
361-367): only performed when the origin is a whole port whose current
value is not `NoValue`. -/
def connectTypeCheck (s : PState) (ori dst : Handle) : Option PyErr :=
  match ori with
  | .part _ _ => none
  | .whole p =>
    match paramValue s p with
    | none => some .valueError
    | some v =>
      if v.isNoValue then none
      else
        match dstCheckedType s dst with
        | none => some .indexError
        | some dt => if typeCheck dt v then none else some .typeMismatch

/-- Reference count of the destination slot checked by the fan-in guard
(param.py lines 371-377): total count for a whole destination, per-index
count for an indexed one. -/
def slotRefCount (s : PState) : Handle → Nat
  | .whole d => refCounter s d none
  | .part d x => refCounter s d (some x.index)

/-- Fan-in guard. -/
def fanInFail (s : PState) (dst : Handle) : Bool :=
  slotRefCount s dst != 0

/-- Aggregator insertion after an indexed-destination rewire (param.py
lines 399-406): extend an existing `IterableInputContainers` or replace the
destination's container by a fresh one-element aggregator. -/
def aggAdd (s : PState) (d : Nat) (x : IterC) : PState :=
  match (s.ports d).cont with
  | .aggr l => setCont s d (.aggr (l ++ [x]))
  | _ => setCont s d (.aggr [x])

/-- The four cell-rewiring cases of `Param._connect` (param.py lines
379-406).  `assertionError` models a failing `assert isinstance ...`;
`depthExceeded` models the nesting the source documents as impossible
(an origin handle whose backing is already nested). -/
def rewire (s : PState) (ori dst : Handle) : Except PyErr PState :=
  match dst, ori with
  | .whole dp, .whole op =>
    match (s.ports dp).cont, (s.ports op).cont with
    | .cell _, .cell oc => .ok (setCont s dp (.cell oc))
    | _, _ => .error .assertionError
  | .part dp dx, .whole op =>
    match (s.ports op).cont with
    | .cell oc => .ok (aggAdd s dp ⟨.cont (.heapCell oc), dx.index⟩)
    | _ => .error .assertionError
  | .whole dp, .part _ ox =>
    match (s.ports dp).cont with
    | .cell dc => .ok (writeCell s dc (.iterC ox))
    | _ => .error .assertionError
  | .part dp dx, .part _ ox =>
    match ox.backing with
    | .cont r => .ok (aggAdd s dp ⟨.iter r ox.index, dx.index⟩)
    | .iter _ _ => .error .depthExceeded

/-- Translation of the `add` branch of `Param._update_references` (param.py
lines 445-451): two fresh events (both initially unset) are allocated and
the very same pair is stored in the reference each side adds. -/
def updateReferencesAdd (s : PState) (o : Nat) (oi : Option Nat) (d : Nat)
    (di : Option Nat) : PState :=
  let ce := s.nextEvent
  let se := s.nextEvent + 1
  let s1 : PState :=
    { s with nextEvent := s.nextEvent + 2,
             events := fun e => if e = ce || e = se then false else s.events e }
  let s2 := modPort s1 o fun pd =>
    { pd with refs := alUpdate pd.refs oi fun l => refsAdd l ⟨d, di, some se, some ce⟩ }
  modPort s2 d fun pd =>
    { pd with refs := alUpdate pd.refs di fun l => refsAdd l ⟨o, oi, some se, some ce⟩ }

/-- Translation of the `remove` branch of `Param._update_references`
(param.py lines 452-454): the origin side is removed first; a `KeyError`
aborts, leaving any earlier mutation in place. -/
def updateReferencesRemove (s : PState) (o : Nat) (oi : Option Nat) (d : Nat)
    (di : Option Nat) : Option PyErr × PState :=
  match refsRemove (alGet (s.ports o).refs oi) ⟨d, di, none, none⟩ with
  | none => (some .keyError, s)
  | some l1 =>
    let s1 := modPort s o fun pd => { pd with refs := alUpdate pd.refs oi fun _ => l1 }
    match refsRemove (alGet (s1.ports d).refs di) ⟨o, oi, none, none⟩ with
    | none => (some .keyError, s1)
    | some l2 =>
      (none, modPort s1 d fun pd => { pd with refs := alUpdate pd.refs di fun _ => l2 })

/-- Translation of `Param._connect` (param.py lines 352-408).  The returned
state is the state as mutated up to a raise; every raise in `_connect`
happens before any mutation, so the error cases return the input state. -/
def pconnect (s : PState) (ori dst : Handle) : Option PyErr × PState :=
  match connectTypeCheck s ori dst with
  | some e => (some e, s)
  | none =>
    if fanInFail s dst then (some .fanInExceeded, s)
    else
      match rewire s ori dst with
      | .error e => (some e, s)
      | .ok s' => (none, updateReferencesAdd s' ori.port ori.hidx dst.port dst.hidx)

/-- Removal of the first container with a given index from an
`IterableInputContainers` (its `remove`, param.py lines 72-77; silently a
no-op when the index is absent). -/
def aggrRemove : List IterC → Nat → List IterC
  | [], _ => []
  | x :: xs, i => if x.index = i then xs else x :: aggrRemove xs i

/-- The cell-restoring half of `Param._disconnect` (param.py lines
418-430). -/
def unwire (s : PState) (dst : Handle) : Except PyErr PState :=
  match dst with
  | .whole dp =>
    match (s.ports dp).cont with
    | .cell _ => .ok (allocNoValueCell s dp)
    | _ => .error .assertionError
  | .part dp dx =>
    match (s.ports dp).cont with
    | .aggr l =>
      let l' := aggrRemove l dx.index
      if l'.isEmpty then .ok (allocNoValueCell s dp) else .ok (setCont s dp (.aggr l'))
    | _ => .ok (allocNoValueCell s dp)

/-- Translation of `Param._disconnect` (param.py lines 418-432): the cell is
restored first, then the references are removed (so a failing reference
lookup leaves the restored cell in place). -/
def pdisconnect (s : PState) (ori dst : Handle) : Option PyErr × PState :=
  match unwire s dst with
  | .error e => (some e, s)
  | .ok s1 => updateReferencesRemove s1 ori.port ori.hidx dst.port dst.hidx

/-! ### Operation sequences -/

/-- A connect or disconnect request between two endpoints, each given as a
port and an optional index (an index means the endpoint is obtained through
`select`). -/
inductive Op where
  | conn (o : Nat) (oi : Option Nat) (d : Nat) (di : Option Nat)
  | disc (o : Nat) (oi : Option Nat) (d : Nat) (di : Option Nat)

/-- Apply one operation; a raising operation leaves the state as mutated up
to the raise. -/
def applyOp (s : PState) : Op → PState
  | .conn o oi d di =>
    match mkHandle s o oi, mkHandle s d di with
    | .ok ho, .ok hd => (pconnect s ho hd).2
    | _, _ => s
  | .disc o oi d di =>
    match mkHandle s o oi, mkHandle s d di with
    | .ok ho, .ok hd => (pdisconnect s ho hd).2
    | _, _ => s

/-- Run a sequence of operations. -/
def runOps (s : PState) (ops : List Op) : PState := ops.foldl applyOp s

/-! ### The synchronous prefix of send -/

/-- Set one event's truth value. -/
def setEvent (s : PState) (e : Nat) (b : Bool) : PState :=
  { s with events := fun x => if x = e then b else s.events x }

/-- Outcome of the synchronous prefix of `OutputParam.send`: the error (if
the value assignment raised), the mutated state, the `consumed` events the
final `gather` awaits (`send` suspends exactly when this is nonempty), the
peers for which the parent's state is set to `SENDING_PARAMS`, and the peers
whose parent state is checked for `ComponentStopped` after the waits. -/
structure SendOut where
  err : Option PyErr
  st : PState
  waitSet : List Nat
  notifySet : List Nat
  checkSet : List Nat

/-- Translation of `OutputParam.send` (param.py lines 529-555) up to its
suspension point, together with `Param._set_value` (lines 302-312): the
value is type checked and written into the port's cell, then for every
reference `consumed` is cleared and `sent` is set, the peer's parent is
marked, and the `consumed` events are collected for the final `gather`;
the post-wait loop checks every peer's parent for a stopped state. -/
def psend (s : PState) (p : Nat) (v : PVal) : SendOut :=
  match (s.ports p).cont with
  | .aggr _ => ⟨some .immutableCell, s, [], [], []⟩
  | .cell c =>
    if v.isCellShaped then ⟨some .illegalValue, s, [], [], []⟩
    else if ! typeCheck (s.ports p).tp v then ⟨some .typeMismatch, s, [], [], []⟩
    else
      let s1 := writeCell s c v
      let refs := unionRefs (s.ports p).refs
      if refs.all (fun r => r.sent.isSome && r.consumed.isSome) then
        let s2 := refs.foldl
          (fun st r => setEvent (setEvent st (r.consumed.getD 0) false) (r.sent.getD 0) true) s1
        ⟨none, s2, refs.filterMap (fun r => r.consumed),
          refs.map (fun r => r.param), refs.map (fun r => r.param)⟩
      else ⟨some .assertionError, s1, [], [], []⟩

/-! ### The single-edge rendezvous as a transition system -/

/-- State of one producer/consumer edge running the scenario
`send(1); send(2); send(3)` against three `receive()` calls: the shared
cell, the two events, how many send write-phases and how many receives have
completed, and the list of values the receives returned. -/
structure RS where
  cell : Nat
  sent : Bool
  consumed : Bool
  writes : Nat
  reads : Nat
  received : List Nat
deriving DecidableEq, Repr

/-- Initial state: no value written, both events unset. -/
def RS.init : RS := ⟨0, false, false, 0, 0, []⟩

/-- Atomic steps of the cooperative scheduler.  `prodStep` is the write
phase of `send` (param.py lines 532-537: set the value, clear `consumed`,
set `sent`) which runs atomically after the previous `send`'s
`await consumed.wait()` completed (that wait completes only when `consumed`
is set; the first `send` needs no wait).  `consStep` is the completion of
`receive` (lines 500-520): it runs when `sent` is set, snapshots the value,
sets `consumed` and clears `sent`, atomically up to the next `await`. -/
inductive RStep : RS → RS → Prop
  | prodStep (s : RS) (h : s.writes < 3) (hw : s.writes = 0 ∨ s.consumed = true) :
      RStep s { cell := s.writes + 1, sent := true, consumed := false,
                writes := s.writes + 1, reads := s.reads, received := s.received }
  | consStep (s : RS) (h : s.reads < 3) (hs : s.sent = true) :
      RStep s { cell := s.cell, sent := false, consumed := true,
                writes := s.writes, reads := s.reads + 1,
                received := s.received ++ [s.cell] }

/-- Reachability from the initial state. -/
inductive RReach : RS → Prop
  | init : RReach RS.init
  | step {a b : RS} : RReach a → RStep a b → RReach b

/-! ### Basic lemmas about the reference-set operations -/

theorem keyEq_comm (a b : Ref) : keyEq a b = keyEq b a := by
  simp only [keyEq]
  exact decide_eq_decide.mpr (by constructor <;> (rintro ⟨h1, h2⟩; exact ⟨h1.symm, h2.symm⟩))

theorem keyEq_trans {a b c : Ref} (h1 : keyEq a b = true) (h2 : keyEq b c = true) :
    keyEq a c = true := by
  simp only [keyEq, decide_eq_true_eq] at *
  exact ⟨h1.1.trans h2.1, h1.2.trans h2.2⟩

theorem keyEq_param {a b : Ref} (h : keyEq a b = true) : a.param = b.param := by
  simp only [keyEq, decide_eq_true_eq] at h
  exact h.1

theorem mem_refsAdd {l : List Ref} {x r : Ref} (h : r ∈ refsAdd l x) : r ∈ l ∨ r = x := by
  unfold refsAdd at h
  split at h
  · exact Or.inl h
  · rcases List.mem_cons.mp h with h | h
    · exact Or.inr h
    · exact Or.inl h

theorem refsAdd_mem_mono {l : List Ref} {x r : Ref} (h : r ∈ l) : r ∈ refsAdd l x := by
  unfold refsAdd
  split
  · exact h
  · exact List.mem_cons_of_mem _ h

theorem self_mem_refsAdd {l : List Ref} {x : Ref} (h : hasKey l x = false) :
    x ∈ refsAdd l x := by
  simp [refsAdd, h]

theorem refsAdd_of_hasKey {l : List Ref} {x : Ref} (h : hasKey l x = true) :
    refsAdd l x = l := by
  simp [refsAdd, h]

theorem hasKey_false_iff {l : List Ref} {x : Ref} :
    hasKey l x = false ↔ ∀ y ∈ l, keyEq y x = false := by
  simp [hasKey, List.any_eq_false]

theorem refsAdd_ne_nil {l : List Ref} {x : Ref} : refsAdd l x ≠ [] := by
  unfold refsAdd
  split
  · intro h
    subst h
    simp [hasKey] at *
  · simp

theorem refsAdd_pairwise {l : List Ref} {x : Ref}
    (h : l.Pairwise fun a b => keyEq a b = false) :
    (refsAdd l x).Pairwise fun a b => keyEq a b = false := by
  unfold refsAdd
  split
  · exact h
  · next hk =>
    refine List.Pairwise.cons ?_ h
    intro y hy
    have := hasKey_false_iff.mp (Bool.of_not_eq_true hk) y hy
    rw [keyEq_comm]
    exact this

theorem refsRemove_eq_none {l : List Ref} {t : Ref} :
    refsRemove l t = none ↔ ∀ y ∈ l, keyEq y t = false := by
  induction l with
  | nil => simp [refsRemove]
  | cons x xs ih =>
    simp only [refsRemove]
    by_cases hx : keyEq x t = true
    · simp [hx]
    · have hx' : keyEq x t = false := Bool.of_not_eq_true hx
      simp [hx', Option.map_eq_none', ih]

theorem refsRemove_some {l l' : List Ref} {t : Ref} (h : refsRemove l t = some l') :
    ∃ l₁ x l₂, l = l₁ ++ x :: l₂ ∧ l' = l₁ ++ l₂ ∧ keyEq x t = true ∧
      ∀ y ∈ l₁, keyEq y t = false := by
  induction l generalizing l' with
  | nil => simp [refsRemove] at h
  | cons a xs ih =>
    simp only [refsRemove] at h
    by_cases ha : keyEq a t = true
    · rw [if_pos ha] at h
      injection h with h
      exact ⟨[], a, xs, rfl, by simp [h], ha, by simp⟩
    · have ha' : keyEq a t = false := Bool.of_not_eq_true ha
      rw [if_neg ha] at h
      rcases Option.map_eq_some'.mp h with ⟨l₀, h0, hmap⟩
      rcases ih h0 with ⟨l₁, x, l₂, hxs, hl0, hx, hl₁⟩
      refine ⟨a :: l₁, x, l₂, by simp [hxs], by simp [← hmap, hl0], hx, ?_⟩
      intro y hy
      rcases List.mem_cons.mp hy with rfl | hy
      · exact ha'
      · exact hl₁ y hy

theorem refsRemove_sub {l l' : List Ref} {t : Ref} (h : refsRemove l t = some l') :
    ∀ y ∈ l', y ∈ l := by
  rcases refsRemove_some h with ⟨l₁, x, l₂, rfl, rfl, -, -⟩
  intro y hy
  rcases List.mem_append.mp hy with hy | hy
  · exact List.mem_append.mpr (Or.inl hy)
  · exact List.mem_append.mpr (Or.inr (List.mem_cons_of_mem _ hy))

theorem refsRemove_pairwise {l l' : List Ref} {t : Ref}
    (hp : l.Pairwise fun a b => keyEq a b = false) (h : refsRemove l t = some l') :
    l'.Pairwise fun a b => keyEq a b = false := by
  rcases refsRemove_some h with ⟨l₁, x, l₂, rfl, rfl, -, -⟩
  exact hp.sublist (List.Sublist.append_left (List.sublist_cons_self x l₂) l₁)

theorem refsRemove_mem_of_not_key {l l' : List Ref} {t y : Ref}
    (h : refsRemove l t = some l')
    (hy : y ∈ l) (hk : keyEq y t = false) : y ∈ l' := by
  rcases refsRemove_some h with ⟨l₁, x, l₂, rfl, rfl, hx, -⟩
  rcases List.mem_append.mp hy with h1 | h1
  · exact List.mem_append.mpr (Or.inl h1)
  · rcases List.mem_cons.mp h1 with rfl | h1
    · rw [hx] at hk
      cases hk
    · exact List.mem_append.mpr (Or.inr h1)

theorem refsRemove_mem_key_false {l l' : List Ref} {t y : Ref}
    (hp : l.Pairwise fun a b => keyEq a b = false) (h : refsRemove l t = some l')
    (hy : y ∈ l') : keyEq y t = false := by
  rcases refsRemove_some h with ⟨l₁, x, l₂, rfl, rfl, hx, hl₁⟩
  rcases List.mem_append.mp hy with h1 | h1
  · exact hl₁ y h1
  · have hyx : keyEq x y = false := by
      rcases List.pairwise_cons.mp (List.pairwise_append.mp hp).2.1 with ⟨hall, -⟩
      exact hall y h1
    by_contra hcon
    have hyt : keyEq y t = true := Bool.of_not_eq_false hcon
    have hxy : keyEq x y = true := keyEq_trans hx (by rw [keyEq_comm]; exact hyt)
    rw [hyx] at hxy
    cases hxy

theorem alGet_alUpdate (m : List (Option Nat × List Ref)) (k k' : Option Nat)
    (f : List Ref → List Ref) :
    alGet (alUpdate m k f) k' = if k' = k then f (alGet m k) else alGet m k' := by
  induction m with
  | nil =>
    by_cases h : k' = k
    · subst h
      simp [alUpdate, alGet]
    · have h2 : ¬ k = k' := fun hh => h (Eq.symm hh)
      simp [alUpdate, alGet, h, h2]
  | cons kv rest ih =>
    simp only [alUpdate]
    by_cases h1 : kv.1 = k
    · rw [if_pos h1]
      by_cases h2 : k' = k
      · subst h2
        simp [alGet, h1]
      · have h3 : ¬ k = k' := fun hh => h2 (Eq.symm hh)
        simp [alGet, h1, h2, h3]
    · rw [if_neg h1]
      by_cases h2 : k' = k
      · subst h2
        simp [alGet, h1, ih]
      · by_cases h3 : kv.1 = k'
        · simp [alGet, h3, h2]
        · simp [alGet, h3, ih, h2]

theorem alGet_entries (m : List (Option Nat × List Ref)) (k : Option Nat) :
    alGet m k = [] ∨ ∃ kv, kv ∈ m ∧ kv.1 = k ∧ alGet m k = kv.2 := by
  induction m with
  | nil => exact Or.inl rfl
  | cons kv rest ih =>
    by_cases h : kv.1 = k
    · exact Or.inr ⟨kv, by simp, h, by simp [alGet, h]⟩
    · rcases ih with h0 | ⟨kv', h1, h2, h3⟩
      · exact Or.inl (by simp [alGet, h, h0])
      · exact Or.inr ⟨kv', by simp [h1], h2, by simp [alGet, h, h3]⟩

theorem mem_alUpdate (m : List (Option Nat × List Ref)) (k : Option Nat)
    (f : List Ref → List Ref) :
    ∀ kv' ∈ alUpdate m k f, kv' ∈ m ∨ ∃ l0, kv' = (k, f l0) := by
  induction m with
  | nil =>
    intro kv' h
    simp [alUpdate] at h
    exact Or.inr ⟨[], h⟩
  | cons kv rest ih =>
    intro kv' h
    simp only [alUpdate] at h
    split at h
    · rcases List.mem_cons.mp h with rfl | h
      · exact Or.inr ⟨kv.2, rfl⟩
      · exact Or.inl (List.mem_cons_of_mem _ h)
    · rcases List.mem_cons.mp h with rfl | h
      · exact Or.inl (List.mem_cons_self _ _)
      · rcases ih kv' h with h | h
        · exact Or.inl (List.mem_cons_of_mem _ h)
        · exact Or.inr h

theorem foldl_refsAdd_mem {l : List Ref} {acc : List Ref} {r : Ref}
    (h : r ∈ l.foldl refsAdd acc) : r ∈ acc ∨ r ∈ l := by
  induction l generalizing acc with
  | nil => exact Or.inl h
  | cons x xs ih =>
    simp only [List.foldl_cons] at h
    rcases ih h with h1 | h1
    · rcases mem_refsAdd h1 with h2 | rfl
      · exact Or.inl h2
      · exact Or.inr (by simp)
    · exact Or.inr (List.mem_cons_of_mem _ h1)

theorem unionRefs_fold_mem {r : Ref} :
    ∀ (m : List (Option Nat × List Ref)) (acc : List Ref),
      r ∈ m.foldl (fun acc kv => kv.2.foldl refsAdd acc) acc →
      r ∈ acc ∨ ∃ kv ∈ m, r ∈ kv.2 := by
  intro m
  induction m with
  | nil => exact fun acc h => Or.inl h
  | cons kv rest ih =>
    intro acc h
    simp only [List.foldl_cons] at h
    rcases ih _ h with h1 | ⟨kv', h2, h3⟩
    · rcases foldl_refsAdd_mem h1 with h2 | h2
      · exact Or.inl h2
      · exact Or.inr ⟨kv, by simp, h2⟩
    · exact Or.inr ⟨kv', by simp [h2], h3⟩

theorem mem_unionRefs {m : List (Option Nat × List Ref)} {r : Ref}
    (h : r ∈ unionRefs m) : ∃ kv ∈ m, r ∈ kv.2 := by
  unfold unionRefs at h
  rcases unionRefs_fold_mem m [] h with h1 | h1
  · cases h1
  · exact h1

theorem foldl_refsAdd_eq_nil {l : List Ref} {acc : List Ref}
    (h : l.foldl refsAdd acc = []) : acc = [] ∧ l = [] := by
  induction l generalizing acc with
  | nil => exact ⟨h, rfl⟩
  | cons x xs ih =>
    simp only [List.foldl_cons] at h
    rcases ih h with ⟨h1, -⟩
    exact absurd h1 refsAdd_ne_nil

theorem unionRefs_fold_nil :
    ∀ (m : List (Option Nat × List Ref)) (acc : List Ref),
      m.foldl (fun acc kv => kv.2.foldl refsAdd acc) acc = [] →
      acc = [] ∧ ∀ kv ∈ m, kv.2 = [] := by
  intro m
  induction m with
  | nil => exact fun acc h => ⟨h, by simp⟩
  | cons kv rest ih =>
    intro acc h
    simp only [List.foldl_cons] at h
    rcases ih _ h with ⟨h1, h2⟩
    rcases foldl_refsAdd_eq_nil h1 with ⟨h3, h4⟩
    refine ⟨h3, ?_⟩
    intro kv' hkv'
    rcases List.mem_cons.mp hkv' with rfl | hkv'
    · exact h4
    · exact h2 kv' hkv'

theorem unionRefs_eq_nil {m : List (Option Nat × List Ref)} (h : unionRefs m = []) :
    ∀ kv ∈ m, kv.2 = [] :=
  (unionRefs_fold_nil m [] h).2

theorem alGet_eq_nil_of_unionRefs {m : List (Option Nat × List Ref)}
    (h : unionRefs m = []) (k : Option Nat) : alGet m k = [] := by
  rcases alGet_entries m k with h1 | ⟨kv, h1, -, h3⟩
  · exact h1
  · rw [h3]
    exact unionRefs_eq_nil h kv h1

theorem unionRefs_fold_all_nil :
    ∀ (m : List (Option Nat × List Ref)) (acc : List Ref),
      (∀ kv ∈ m, kv.2 = []) →
      m.foldl (fun acc kv => kv.2.foldl refsAdd acc) acc = acc := by
  intro m
  induction m with
  | nil => exact fun acc _ => rfl
  | cons kv rest ih =>
    intro acc hall
    have h1 : kv.2 = [] := hall kv (by simp)
    simp only [List.foldl_cons, h1, List.foldl_nil]
    exact ih acc fun kv' h' => hall kv' (List.mem_cons_of_mem _ h')

theorem unionRefs_of_all_nil {m : List (Option Nat × List Ref)}
    (h : ∀ kv ∈ m, kv.2 = []) : unionRefs m = [] :=
  unionRefs_fold_all_nil m [] h

/-! ### Lemmas about state components -/

theorem modPort_ports (s : PState) (p q : Nat) (f : PortData → PortData) :
    (modPort s p f).ports q = if q = p then f (s.ports p) else s.ports q := by
  by_cases h : q = p <;> simp [modPort, h]

theorem modPort_heap (s : PState) (p : Nat) (f : PortData → PortData) :
    (modPort s p f).heap = s.heap := rfl

theorem modPort_nextCell (s : PState) (p : Nat) (f : PortData → PortData) :
    (modPort s p f).nextCell = s.nextCell := rfl

theorem setCont_refs (s : PState) (p q : Nat) (c : Cont) :
    ((setCont s p c).ports q).refs = (s.ports q).refs := by
  rw [setCont, modPort_ports]
  by_cases h : q = p <;> simp [h]

theorem setCont_cont (s : PState) (p q : Nat) (c : Cont) :
    ((setCont s p c).ports q).cont = if q = p then c else (s.ports q).cont := by
  rw [setCont, modPort_ports]
  by_cases h : q = p <;> simp [h]

theorem setCont_tp (s : PState) (p q : Nat) (c : Cont) :
    ((setCont s p c).ports q).tp = (s.ports q).tp := by
  rw [setCont, modPort_ports]
  by_cases h : q = p <;> simp [h]

theorem writeCell_ports (s : PState) (c : Nat) (v : PVal) :
    (writeCell s c v).ports = s.ports := rfl

theorem writeCell_heap (s : PState) (c x : Nat) (v : PVal) :
    (writeCell s c v).heap x = if x = c then v else s.heap x := rfl

/-- Reading a port whose container is a plain cell holding a non-cell-shaped
value returns the cell's value. -/
theorem paramValue_cell {s : PState} {p c : Nat}
    (h1 : (s.ports p).cont = .cell c) (h2 : (s.heap c).isCellShaped = false) :
    paramValue s p = some (s.heap c) := by
  unfold paramValue
  rw [h1]
  cases hv : s.heap c <;> simp_all [PVal.isCellShaped]

/-- The refs map of every port after the refs update of a connect: the
origin's map is updated at the origin key, on top of that the destination's
map is updated at the destination key (the two coincide for a self
connection because the updates are applied in sequence). -/
theorem updateReferencesAdd_refs (s : PState) (o : Nat) (oi : Option Nat) (d : Nat)
    (di : Option Nat) (a : Nat) :
    ((updateReferencesAdd s o oi d di).ports a).refs =
      (if a = d then
        alUpdate
          (if d = o then
            alUpdate (s.ports o).refs oi
              (fun l => refsAdd l ⟨d, di, some (s.nextEvent + 1), some s.nextEvent⟩)
          else (s.ports d).refs) di
          (fun l => refsAdd l ⟨o, oi, some (s.nextEvent + 1), some s.nextEvent⟩)
      else if a = o then
        alUpdate (s.ports o).refs oi
          (fun l => refsAdd l ⟨d, di, some (s.nextEvent + 1), some s.nextEvent⟩)
      else (s.ports a).refs) := by
  unfold updateReferencesAdd
  simp only [modPort_ports]
  by_cases h1 : a = d
  · subst h1
    by_cases h2 : a = o
    · subst h2
      simp
    · simp [h2]
  · by_cases h2 : a = o
    · subst h2
      simp [h1, fun hh => h1 (Eq.symm hh)]
    · simp [h1, h2]

theorem updateReferencesAdd_cont (s : PState) (o : Nat) (oi : Option Nat) (d : Nat)
    (di : Option Nat) (a : Nat) :
    ((updateReferencesAdd s o oi d di).ports a).cont = (s.ports a).cont := by
  unfold updateReferencesAdd
  simp only [modPort_ports]
  by_cases h1 : a = d
  · subst h1
    by_cases h2 : a = o
    · subst h2
      simp
    · simp [h2]
  · by_cases h2 : a = o
    · subst h2
      simp [h1]
    · simp [h1, h2]

theorem updateReferencesAdd_tp (s : PState) (o : Nat) (oi : Option Nat) (d : Nat)
    (di : Option Nat) (a : Nat) :
    ((updateReferencesAdd s o oi d di).ports a).tp = (s.ports a).tp := by
  unfold updateReferencesAdd
  simp only [modPort_ports]
  by_cases h1 : a = d
  · subst h1
    by_cases h2 : a = o
    · subst h2
      simp
    · simp [h2]
  · by_cases h2 : a = o
    · subst h2
      simp [h1]
    · simp [h1, h2]

theorem updateReferencesAdd_heap (s : PState) (o : Nat) (oi : Option Nat) (d : Nat)
    (di : Option Nat) : (updateReferencesAdd s o oi d di).heap = s.heap := rfl

theorem updateReferencesAdd_nextCell (s : PState) (o : Nat) (oi : Option Nat) (d : Nat)
    (di : Option Nat) : (updateReferencesAdd s o oi d di).nextCell = s.nextCell := rfl

/-- Sharper membership for `alUpdate`: a new entry is the updated first
entry of the key. -/
theorem mem_alUpdate' (m : List (Option Nat × List Ref)) (k : Option Nat)
    (f : List Ref → List Ref) :
    ∀ kv' ∈ alUpdate m k f, kv' ∈ m ∨ kv' = (k, f (alGet m k)) := by
  induction m with
  | nil =>
    intro kv' h
    simp only [alUpdate] at h
    rcases List.mem_cons.mp h with rfl | h
    · exact Or.inr rfl
    · cases h
  | cons kv rest ih =>
    intro kv' h
    simp only [alUpdate] at h
    split at h
    · next heq =>
      rcases List.mem_cons.mp h with rfl | h
      · exact Or.inr (by simp [alGet, heq])
      · exact Or.inl (List.mem_cons_of_mem _ h)
    · next heq =>
      rcases List.mem_cons.mp h with rfl | h
      · exact Or.inl (List.mem_cons_self _ _)
      · rcases ih kv' h with h | h
        · exact Or.inl (List.mem_cons_of_mem _ h)
        · refine Or.inr (by rw [h]; simp [alGet, heq])

/-- Two updates at the same key compose. -/
theorem alUpdate_alUpdate (m : List (Option Nat × List Ref)) (k : Option Nat)
    (f g : List Ref → List Ref) :
    alUpdate (alUpdate m k f) k g = alUpdate m k (fun l => g (f l)) := by
  induction m with
  | nil => simp [alUpdate]
  | cons kv rest ih =>
    simp only [alUpdate]
    split
    · next heq => simp [alUpdate]
    · next heq =>
      simp only [alUpdate, if_neg heq]
      rw [ih]

theorem modRefs_refs (s : PState) (p a : Nat) (k : Option Nat)
    (f : List Ref → List Ref) :
    ((modPort s p fun pd => { pd with refs := alUpdate pd.refs k f }).ports a).refs =
      if a = p then alUpdate (s.ports p).refs k f else (s.ports a).refs := by
  rw [modPort_ports]
  by_cases h : a = p
  · subst h
    simp
  · simp [h]

theorem modRefs_cont (s : PState) (p a : Nat) (k : Option Nat)
    (f : List Ref → List Ref) :
    ((modPort s p fun pd => { pd with refs := alUpdate pd.refs k f }).ports a).cont =
      (s.ports a).cont := by
  rw [modPort_ports]
  by_cases h : a = p
  · subst h
    simp
  · simp [h]

theorem allocNoValueCell_refs (s : PState) (p a : Nat) :
    ((allocNoValueCell s p).ports a).refs = (s.ports a).refs := by
  unfold allocNoValueCell
  rw [setCont_refs]

theorem allocNoValueCell_cont (s : PState) (p a : Nat) :
    ((allocNoValueCell s p).ports a).cont =
      if a = p then .cell s.nextCell else (s.ports a).cont := by
  unfold allocNoValueCell
  rw [setCont_cont]

theorem allocNoValueCell_heap (s : PState) (p x : Nat) :
    (allocNoValueCell s p).heap x = if x = s.nextCell then .noValue else s.heap x := rfl

/-- A remove round of `_update_references` under the success conditions of
both lookups. -/
theorem updateReferencesRemove_spec (s : PState) (o d : Nat) (oi di : Option Nat)
    (L0 L1 : List Ref)
    (h1 : refsRemove (alGet (s.ports o).refs oi) ⟨d, di, none, none⟩ = some L0)
    (h2 : refsRemove
        (alGet ((modPort s o fun pd =>
          { pd with refs := alUpdate pd.refs oi fun _ => L0 }).ports d).refs di)
        ⟨o, oi, none, none⟩ = some L1) :
    updateReferencesRemove s o oi d di =
      (none, modPort (modPort s o fun pd =>
        { pd with refs := alUpdate pd.refs oi fun _ => L0 }) d
        (fun pd => { pd with refs := alUpdate pd.refs di fun _ => L1 })) := by
  unfold updateReferencesRemove
  rw [h1]
  simp only []
  rw [h2]

/-! ### Concrete states used by witnesses and counterexamples -/

/-- A small concrete graph: port 0 is an `int` output holding 7, port 1 an
unconnected `int` input, port 2 an unconnected `str` input, every other port
an `Any` port holding no value. -/
def wState : PState :=
  { ports := fun p =>
      if p = 0 then ⟨.tInt, .cell 0, []⟩
      else if p = 1 then ⟨.tInt, .cell 1, []⟩
      else if p = 2 then ⟨.tStr, .cell 2, []⟩
      else ⟨.tAny, .cell (p + 10), []⟩,
    heap := fun c => if c = 0 then .pInt 7 else .noValue,
    events := fun _ => false,
    nextCell := 100, nextEvent := 0 }

/-- The state of `wState` after connecting port 0 to port 1. -/
def wState1 : PState := (pconnect wState (.whole 0) (.whole 1)).2

/-- A port whose declared type is the fixed-arity tuple `Tuple[Tensor]`. -/
def tupState : PState :=
  { ports := fun _ => ⟨.tTuple1 .tTensor false, .cell 0, []⟩,
    heap := fun _ => .noValue, events := fun _ => false, nextCell := 1, nextEvent := 0 }

/-- A list-typed input port whose container is already an aggregator. -/
def aggState : PState :=
  { ports := fun _ => ⟨.tList .tTensor, .aggr [], []⟩,
    heap := fun _ => .noValue, events := fun _ => false, nextCell := 1, nextEvent := 0 }

/-! ### Claim C9: which declared types are subscriptable -/

/-- Enumeration of the types `_check_subscriptable` accepts in this type
model. -/
theorem check_subscriptable_eq_true_iff (t : PyType) :
    check_subscriptable t = true ↔
      (t = .tList .tTensor ∨ t = .tSeq .tTensor ∨ t = .tIter .tTensor ∨
       t = .tTuple1 .tTensor true ∨ t = .tTuple1 .tTensor false) := by
  cases t <;> simp [check_subscriptable]
  next t ell => cases ell <;> simp

/-- C9 (counterexample): the claim states that `select` succeeds only on
`Sequence[Tensor]`, `Iterable[Tensor]`, `List[Tensor]` and
`Tuple[Tensor, ...]`, and that fixed-arity tuples raise
`UnsubscriptablePort`; but on the fixed-arity one-element tuple
`Tuple[Tensor]` the source's `_check_subscriptable` returns true (its
argument tuple has length 1) and `select` succeeds. -/
theorem select_tuple1_cex :
    check_subscriptable (PyType.tTuple1 .tTensor false) = true ∧
    specSubscriptable (PyType.tTuple1 .tTensor false) = false ∧
    select tupState 0 0 = Except.ok (IPCont.ic ⟨.cont (.heapCell 0), 0⟩) :=
  ⟨rfl, rfl, rfl⟩

/-- C9 (amended): `select(i)` succeeds (returning an indexed handle) if and
only if the port's declared type is `Sequence[Tensor]`, `Iterable[Tensor]`,
`List[Tensor]`, or a tuple type whose single element argument is `Tensor` —
`Tuple[Tensor, ...]` and also the fixed-arity `Tuple[Tensor]`; on any other
declared type — fixed-arity tuples of two or more elements, non-tensor
element types, and plain classes — `select` raises `UnsubscriptablePort`. -/
theorem select_ok_iff_subscriptable (s : PState) (p i : Nat) :
    (∃ h, select s p i = Except.ok h) ↔
      ((s.ports p).tp = .tList .tTensor ∨ (s.ports p).tp = .tSeq .tTensor ∨
       (s.ports p).tp = .tIter .tTensor ∨ (s.ports p).tp = .tTuple1 .tTensor true ∨
       (s.ports p).tp = .tTuple1 .tTensor false) := by
  constructor
  · rintro ⟨h, hh⟩
    unfold select at hh
    split at hh
    · next hcs => exact (check_subscriptable_eq_true_iff _).mp hcs
    · cases hh
  · intro h
    have hcs : check_subscriptable (s.ports p).tp = true :=
      (check_subscriptable_eq_true_iff _).mpr h
    exact ⟨iterableParamInit (s.ports p).cont i, by simp [select, hcs]⟩

/-! ### Claim C8: queries on a handle over an aggregator-based input -/

/-- C8 (counterexample): the claim states that `index` and `ref_counter` on
a handle obtained by `select` on a port whose cell is an aggregator raise
`UnsupportedQuery`; but `IterableParam.__init__` wraps such a base in an
`IterableContainer(Container(None), i)`, not in an
`IterableInputContainers`, so both queries succeed. -/
theorem aggr_handle_queries_cex :
    select aggState 0 2 = Except.ok (IPCont.ic ⟨.cont .nullCont, 2⟩) ∧
    iterableParamIndex (IPCont.ic ⟨.cont .nullCont, 2⟩) = Except.ok 2 ∧
    iterableParamRefCounter aggState 0 (IPCont.ic ⟨.cont .nullCont, 2⟩) = Except.ok 0 :=
  ⟨rfl, rfl, rfl⟩

/-- C8 (amended): for every indexed handle obtained by `select i` on a
subscriptable input port whose cell is an aggregator, querying the handle's
`index` returns `i` and its per-index reference count returns the port's
`ref_counter i`; the `UnsupportedQuery` error could only arise for a handle
whose container is an `IterableInputContainers`, which `select` never
constructs. -/
theorem aggr_handle_queries_ok (s : PState) (p i : Nat) (l : List IterC)
    (hagg : (s.ports p).cont = .aggr l)
    (hsub : check_subscriptable (s.ports p).tp = true) :
    select s p i = Except.ok (IPCont.ic ⟨.cont .nullCont, i⟩) ∧
    iterableParamIndex (IPCont.ic ⟨.cont .nullCont, i⟩) = Except.ok i ∧
    iterableParamRefCounter s p (IPCont.ic ⟨.cont .nullCont, i⟩) =
      Except.ok (refCounter s p (some i)) := by
  refine ⟨?_, rfl, rfl⟩
  simp [select, hsub, iterableParamInit, hagg]

/-- C8 (witness for the amended theorem). -/
theorem aggr_handle_queries_ok_witness :
    select aggState 0 5 = Except.ok (IPCont.ic ⟨.cont .nullCont, 5⟩) ∧
    iterableParamIndex (IPCont.ic ⟨.cont .nullCont, 5⟩) = Except.ok 5 ∧
    iterableParamRefCounter aggState 0 (IPCont.ic ⟨.cont .nullCont, 5⟩) =
      Except.ok (refCounter aggState 0 (some 5)) :=
  aggr_handle_queries_ok aggState 0 5 [] rfl rfl

/-! ### Claim C6: type mismatch on a pre-valued connect -/

/-- C6: for every connect whose origin is a whole port holding a value that
is not `NoValue` and that fails the runtime type check against the
destination's declared (element) type, `_connect` raises `TypeMismatch`
before any reference bookkeeping or cell rewiring: the state is returned
exactly as it was. -/
theorem connect_type_mismatch (s : PState) (O : Nat) (dst : Handle) (v : PVal)
    (dt : PyType)
    (hv : paramValue s O = some v)
    (hnv : v.isNoValue = false)
    (hdt : dstCheckedType s dst = some dt)
    (htc : typeCheck dt v = false) :
    pconnect s (.whole O) dst = (some .typeMismatch, s) := by
  simp [pconnect, connectTypeCheck, hv, hnv, hdt, htc]

/-- C6 (witness): connecting the `int`-valued port 0 to the `str` port 2
raises `TypeMismatch` and leaves the state unchanged. -/
theorem connect_type_mismatch_witness :
    pconnect wState (.whole 0) (.whole 2) = (some PyErr.typeMismatch, wState) :=
  connect_type_mismatch wState 0 (.whole 2) (.pInt 7) .tStr rfl rfl rfl rfl

/-! ### Claim C5: fan-in is rejected and leaves the state unchanged -/

/-- C5: for every destination slot (the whole port when connecting whole,
the selected index when connecting indexed) whose reference count is
positive, a further connect that passes the value pre-check raises
`FanInExceeded` and leaves the whole state — in particular the
destination's cell and reference sets — unchanged. -/
theorem connect_fan_in_exceeded (s : PState) (ori dst : Handle)
    (hty : connectTypeCheck s ori dst = none)
    (hfan : 0 < slotRefCount s dst) :
    pconnect s ori dst = (some .fanInExceeded, s) := by
  have hb : fanInFail s dst = true := by
    simp only [fanInFail, bne_iff_ne, ne_eq]
    omega
  simp [pconnect, hty, hb]

/-- C5 (witness): after `0 >> 1`, connecting port 3 into port 1 fails with
`FanInExceeded` and the state is unchanged (port 1 still shares port 0's
cell). -/
theorem connect_fan_in_exceeded_witness :
    pconnect wState1 (.whole 3) (.whole 1) = (some PyErr.fanInExceeded, wState1) :=
  connect_fan_in_exceeded wState1 (.whole 3) (.whole 1) rfl (by decide)

/-! ### Claim C10: send on an output port with no references -/

/-- C10: for every output port with no edge references, `send v` type
checks `v` against the declared type, stores it in the port's value cell,
and returns synchronously: the `consumed` wait set is empty, no parent
state is set for any peer, and the post-wait stopped-peer check set is
empty, so no `ComponentStopped` can be raised. -/
theorem send_no_refs (s : PState) (p c : Nat) (v : PVal)
    (hc : (s.ports p).cont = .cell c)
    (hrefs : unionRefs (s.ports p).refs = [])
    (hshape : v.isCellShaped = false)
    (htc : typeCheck (s.ports p).tp v = true) :
    psend s p v = ⟨none, writeCell s c v, [], [], []⟩ := by
  unfold psend
  rw [hc]
  simp [hshape, htc, hrefs]

/-- C10 (witness): sending 9 on the unconnected port 0 stores the value and
produces empty wait, notify and check sets. -/
theorem send_no_refs_witness :
    psend wState 0 (.pInt 9) = ⟨none, writeCell wState 0 (.pInt 9), [], [], []⟩ :=
  send_no_refs wState 0 0 (.pInt 9) rfl rfl rfl rfl

/-! ### Claim C1: a whole-port connect shares the producer's cell -/

/-- C1: for every whole output port holding a concrete value `v` (not the
`NoValue` sentinel) and every unconnected whole input port of a compatible
declared type, `connect` succeeds, the destination's container becomes the
origin's value cell (the two ports share one cell), reading the
destination's `value` returns exactly `v`, and any later write into the
origin's cell is visible through the destination. -/
theorem connect_whole_shares_cell (s : PState) (O D oc dc : Nat) (v : PVal)
    (hOD : O ≠ D)
    (hO : (s.ports O).cont = .cell oc)
    (hD : (s.ports D).cont = .cell dc)
    (hv : s.heap oc = v)
    (hshape : v.isCellShaped = false)
    (hnv : v.isNoValue = false)
    (htc : typeCheck (s.ports D).tp v = true)
    (hfan : unionRefs (s.ports D).refs = []) :
    ∃ s', pconnect s (.whole O) (.whole D) = (none, s') ∧
      (s'.ports D).cont = .cell oc ∧ (s'.ports O).cont = .cell oc ∧
      paramValue s' D = some v ∧
      ∀ w, w.isCellShaped = false → paramValue (writeCell s' oc w) D = some w := by
  have hpv : paramValue s O = some v := by
    rw [← hv]
    exact paramValue_cell hO (hv ▸ hshape)
  have hty : connectTypeCheck s (.whole O) (.whole D) = none := by
    simp [connectTypeCheck, hpv, hnv, dstCheckedType, htc]
  have hfanb : fanInFail s (.whole D) = false := by
    simp [fanInFail, slotRefCount, refCounter, hfan]
  have hrw : rewire s (.whole O) (.whole D) = .ok (setCont s D (.cell oc)) := by
    simp [rewire, hD, hO]
  refine ⟨updateReferencesAdd (setCont s D (.cell oc)) O none D none, ?_, ?_, ?_, ?_, ?_⟩
  · simp [pconnect, hty, hfanb, hrw, Handle.port, Handle.hidx]
  · rw [updateReferencesAdd_cont, setCont_cont]
    simp
  · rw [updateReferencesAdd_cont, setCont_cont]
    simp [hOD, hO]
  · have hcont : ((updateReferencesAdd (setCont s D (.cell oc)) O none D none).ports D).cont
        = .cell oc := by
      rw [updateReferencesAdd_cont, setCont_cont]
      simp
    have hheap : (updateReferencesAdd (setCont s D (.cell oc)) O none D none).heap
        = s.heap := rfl
    rw [paramValue_cell hcont (by rw [hheap, hv]; exact hshape), hheap, hv]
  · intro w hw
    have hcont : ((writeCell (updateReferencesAdd (setCont s D (.cell oc)) O none D none)
        oc w).ports D).cont = .cell oc := by
      rw [writeCell_ports, updateReferencesAdd_cont, setCont_cont]
      simp
    have hheap : (writeCell (updateReferencesAdd (setCont s D (.cell oc)) O none D none)
        oc w).heap oc = w := by
      rw [writeCell_heap]
      simp
    rw [paramValue_cell hcont (by rw [hheap]; exact hw), hheap]

/-- C1 (witness): connecting port 0 (value 7) to port 1 makes `1.value`
read 7, and a later write of 8 into port 0's cell is read through port 1. -/
theorem connect_whole_shares_cell_witness :
    ∃ s', pconnect wState (.whole 0) (.whole 1) = (none, s') ∧
      (s'.ports 1).cont = .cell 0 ∧ (s'.ports 0).cont = .cell 0 ∧
      paramValue s' 1 = some (.pInt 7) ∧
      ∀ w, w.isCellShaped = false → paramValue (writeCell s' 0 w) 1 = some w :=
  connect_whole_shares_cell wState 0 1 0 1 (.pInt 7) (by decide) rfl rfl rfl rfl rfl rfl
    rfl

theorem setCont_nextEvent (s : PState) (p : Nat) (c : Cont) :
    (setCont s p c).nextEvent = s.nextEvent := rfl

/-! ### Claim C7: connect/disconnect round trip -/

/-- C7: after a successful whole-port `connect (O, D)`, `disconnect (O, D)`
succeeds, restores D's cell to a freshly allocated `NoValue` cell (distinct
from the producer's cell), removes the mutual edge references (O's reference
set restricted to D is empty and D's reference set is empty), and a second
`disconnect (O, D)` of the same pair fails with the lookup-miss `KeyError`. -/
theorem disconnect_round_trip (s : PState) (O D oc dc : Nat) (v : PVal)
    (hOD : O ≠ D)
    (hO : (s.ports O).cont = .cell oc)
    (hD : (s.ports D).cont = .cell dc)
    (hv : s.heap oc = v)
    (hshape : v.isCellShaped = false)
    (hnv : v.isNoValue = false)
    (htc : typeCheck (s.ports D).tp v = true)
    (hfan : unionRefs (s.ports D).refs = [])
    (hOrefs : ∀ kv ∈ (s.ports O).refs, ∀ r ∈ kv.2, r.param ≠ D)
    (hfresh : oc < s.nextCell) :
    ∃ s1 s2, pconnect s (.whole O) (.whole D) = (none, s1) ∧
      pdisconnect s1 (.whole O) (.whole D) = (none, s2) ∧
      (s2.ports D).cont = .cell s1.nextCell ∧ s1.nextCell ≠ oc ∧
      s2.heap s1.nextCell = .noValue ∧
      paramValue s2 D = some .noValue ∧
      (∀ r ∈ unionRefs (s2.ports O).refs, r.param ≠ D) ∧
      unionRefs (s2.ports D).refs = [] ∧
      (pdisconnect s2 (.whole O) (.whole D)).1 = some .keyError := by
  have hDO : D ≠ O := Ne.symm hOD
  have hpv : paramValue s O = some v := by
    rw [← hv]
    exact paramValue_cell hO (hv ▸ hshape)
  have hty : connectTypeCheck s (.whole O) (.whole D) = none := by
    simp [connectTypeCheck, hpv, hnv, dstCheckedType, htc]
  have hfanb : fanInFail s (.whole D) = false := by
    simp [fanInFail, slotRefCount, refCounter, hfan]
  have hrw : rewire s (.whole O) (.whole D) = .ok (setCont s D (.cell oc)) := by
    simp [rewire, hD, hO]
  have hconn : pconnect s (.whole O) (.whole D) =
      (none, updateReferencesAdd (setCont s D (.cell oc)) O none D none) := by
    simp [pconnect, hty, hfanb, hrw, Handle.port, Handle.hidx]
  have hT1refsO : ((updateReferencesAdd (setCont s D (.cell oc)) O none D none).ports O).refs
      = alUpdate (s.ports O).refs none
        (fun l => refsAdd l ⟨D, none, some (s.nextEvent + 1), some s.nextEvent⟩) := by
    rw [updateReferencesAdd_refs]
    simp [hOD, setCont_refs, setCont_nextEvent]
  have hT1refsD : ((updateReferencesAdd (setCont s D (.cell oc)) O none D none).ports D).refs
      = alUpdate (s.ports D).refs none
        (fun l => refsAdd l ⟨O, none, some (s.nextEvent + 1), some s.nextEvent⟩) := by
    rw [updateReferencesAdd_refs]
    simp [hDO, setCont_refs, setCont_nextEvent]
  have hT1contD : ((updateReferencesAdd (setCont s D (.cell oc)) O none D none).ports D).cont
      = .cell oc := by
    rw [updateReferencesAdd_cont, setCont_cont]
    simp
  have hT1nc : (updateReferencesAdd (setCont s D (.cell oc)) O none D none).nextCell
      = s.nextCell := rfl
  have hunw : unwire (updateReferencesAdd (setCont s D (.cell oc)) O none D none)
      (.whole D) = .ok (allocNoValueCell
        (updateReferencesAdd (setCont s D (.cell oc)) O none D none) D) := by
    simp [unwire, hT1contD]
  have hL0prop : ∀ r ∈ alGet (s.ports O).refs none, r.param ≠ D := by
    intro r hr
    rcases alGet_entries (s.ports O).refs none with hnil | ⟨kv, hkv, -, hget⟩
    · rw [hnil] at hr
      cases hr
    · rw [hget] at hr
      exact hOrefs kv hkv r hr
  have hnokey : hasKey (alGet (s.ports O).refs none)
      ⟨D, none, some (s.nextEvent + 1), some s.nextEvent⟩ = false :=
    hasKey_false_iff.mpr fun y hy =>
      decide_eq_false (by rintro ⟨h1, -⟩; exact hL0prop y hy h1)
  have halG_O : alGet ((allocNoValueCell
      (updateReferencesAdd (setCont s D (.cell oc)) O none D none) D).ports O).refs none
      = ⟨D, none, some (s.nextEvent + 1), some s.nextEvent⟩ ::
        alGet (s.ports O).refs none := by
    rw [allocNoValueCell_refs, hT1refsO, alGet_alUpdate]
    simp [refsAdd, hnokey]
  have hrem1 : refsRemove
      ((⟨D, none, some (s.nextEvent + 1), some s.nextEvent⟩ : Ref) ::
        alGet (s.ports O).refs none) ⟨D, none, none, none⟩
      = some (alGet (s.ports O).refs none) := by
    simp [refsRemove, keyEq]
  have halG_D : alGet ((modPort (allocNoValueCell
      (updateReferencesAdd (setCont s D (.cell oc)) O none D none) D) O fun pd =>
        { pd with refs := alUpdate pd.refs none fun _ => alGet (s.ports O).refs none
        }).ports D).refs none
      = [⟨O, none, some (s.nextEvent + 1), some s.nextEvent⟩] := by
    rw [modRefs_refs]
    rw [if_neg hDO, allocNoValueCell_refs, hT1refsD, alGet_alUpdate]
    simp [alGet_eq_nil_of_unionRefs hfan, refsAdd, hasKey]
  have hrem2 : refsRemove
      [(⟨O, none, some (s.nextEvent + 1), some s.nextEvent⟩ : Ref)]
      ⟨O, none, none, none⟩ = some [] := by
    simp [refsRemove, keyEq]
  have hupd := updateReferencesRemove_spec
    (allocNoValueCell (updateReferencesAdd (setCont s D (.cell oc)) O none D none) D)
    O D none none (alGet (s.ports O).refs none) []
    (by rw [halG_O]; exact hrem1)
    (by rw [halG_D]; exact hrem2)
  have hdisc : pdisconnect (updateReferencesAdd (setCont s D (.cell oc)) O none D none)
      (.whole O) (.whole D) =
      (none, modPort (modPort (allocNoValueCell
        (updateReferencesAdd (setCont s D (.cell oc)) O none D none) D) O fun pd =>
          { pd with refs := alUpdate pd.refs none fun _ => alGet (s.ports O).refs none }) D
        (fun pd => { pd with refs := alUpdate pd.refs none fun _ => [] })) := by
    simp only [pdisconnect, hunw, Handle.port, Handle.hidx]
    exact hupd
  have hs2contD : ((modPort (modPort (allocNoValueCell
      (updateReferencesAdd (setCont s D (.cell oc)) O none D none) D) O fun pd =>
        { pd with refs := alUpdate pd.refs none fun _ => alGet (s.ports O).refs none }) D
      (fun pd => { pd with refs := alUpdate pd.refs none fun _ => [] })).ports D).cont
      = .cell s.nextCell := by
    rw [modRefs_cont, modRefs_cont, allocNoValueCell_cont]
    simp [hT1nc]
  have hs2heap : (modPort (modPort (allocNoValueCell
      (updateReferencesAdd (setCont s D (.cell oc)) O none D none) D) O fun pd =>
        { pd with refs := alUpdate pd.refs none fun _ => alGet (s.ports O).refs none }) D
      (fun pd => { pd with refs := alUpdate pd.refs none fun _ => [] })).heap s.nextCell
      = .noValue := by
    show (allocNoValueCell
      (updateReferencesAdd (setCont s D (.cell oc)) O none D none) D).heap s.nextCell
      = .noValue
    rw [allocNoValueCell_heap]
    simp [hT1nc]
  have hs2refsO : ((modPort (modPort (allocNoValueCell
      (updateReferencesAdd (setCont s D (.cell oc)) O none D none) D) O fun pd =>
        { pd with refs := alUpdate pd.refs none fun _ => alGet (s.ports O).refs none }) D
      (fun pd => { pd with refs := alUpdate pd.refs none fun _ => [] })).ports O).refs
      = alUpdate (s.ports O).refs none (fun _ => alGet (s.ports O).refs none) := by
    rw [modRefs_refs, if_neg hOD, modRefs_refs, if_pos rfl, allocNoValueCell_refs,
      hT1refsO, alUpdate_alUpdate]
  have hs2refsD : ((modPort (modPort (allocNoValueCell
      (updateReferencesAdd (setCont s D (.cell oc)) O none D none) D) O fun pd =>
        { pd with refs := alUpdate pd.refs none fun _ => alGet (s.ports O).refs none }) D
      (fun pd => { pd with refs := alUpdate pd.refs none fun _ => [] })).ports D).refs
      = alUpdate (s.ports D).refs none (fun _ => []) := by
    rw [modRefs_refs, if_pos rfl, modRefs_refs, if_neg hDO, allocNoValueCell_refs,
      hT1refsD, alUpdate_alUpdate]
  refine ⟨_, _, hconn, hdisc, hs2contD, ?_, hs2heap, ?_, ?_, ?_, ?_⟩
  · rw [hT1nc]
    omega
  · rw [paramValue_cell hs2contD (by rw [hs2heap]; rfl), hs2heap]
  · intro r hr
    rcases mem_unionRefs hr with ⟨kv, hkv, hrm⟩
    rw [hs2refsO] at hkv
    rcases mem_alUpdate' _ _ _ kv hkv with hkv | hkv
    · exact hOrefs kv hkv r hrm
    · rw [hkv] at hrm
      exact hL0prop r hrm
  · rw [hs2refsD]
    refine unionRefs_of_all_nil ?_
    intro kv hkv
    rcases mem_alUpdate' _ _ _ kv hkv with hkv | hkv
    · exact unionRefs_eq_nil hfan kv hkv
    · rw [hkv]
  · have hunw2 : unwire (modPort (modPort (allocNoValueCell
        (updateReferencesAdd (setCont s D (.cell oc)) O none D none) D) O fun pd =>
          { pd with refs := alUpdate pd.refs none fun _ => alGet (s.ports O).refs none }) D
        (fun pd => { pd with refs := alUpdate pd.refs none fun _ => [] })) (.whole D)
        = .ok (allocNoValueCell (modPort (modPort (allocNoValueCell
          (updateReferencesAdd (setCont s D (.cell oc)) O none D none) D) O fun pd =>
            { pd with refs := alUpdate pd.refs none fun _ => alGet (s.ports O).refs none })
          D (fun pd => { pd with refs := alUpdate pd.refs none fun _ => [] })) D) := by
      simp [unwire, hs2contD]
    have halGB : alGet ((allocNoValueCell (modPort (modPort (allocNoValueCell
        (updateReferencesAdd (setCont s D (.cell oc)) O none D none) D) O fun pd =>
          { pd with refs := alUpdate pd.refs none fun _ => alGet (s.ports O).refs none })
        D (fun pd => { pd with refs := alUpdate pd.refs none fun _ => [] })) D).ports
        O).refs none = alGet (s.ports O).refs none := by
      rw [allocNoValueCell_refs, hs2refsO, alGet_alUpdate]
      simp
    have hrm2 : refsRemove (alGet (s.ports O).refs none) ⟨D, none, none, none⟩ = none :=
      refsRemove_eq_none.mpr fun y hy =>
        decide_eq_false (by rintro ⟨h1, -⟩; exact hL0prop y hy h1)
    simp only [pdisconnect, hunw2, Handle.port, Handle.hidx]
    unfold updateReferencesRemove
    rw [halGB, hrm2]

/-- C7 (witness): the round trip on the concrete graph `wState`. -/
theorem disconnect_round_trip_witness :
    ∃ s1 s2, pconnect wState (.whole 0) (.whole 1) = (none, s1) ∧
      pdisconnect s1 (.whole 0) (.whole 1) = (none, s2) ∧
      (s2.ports 1).cont = .cell s1.nextCell ∧ s1.nextCell ≠ 0 ∧
      s2.heap s1.nextCell = .noValue ∧
      paramValue s2 1 = some .noValue ∧
      (∀ r ∈ unionRefs (s2.ports 0).refs, r.param ≠ 1) ∧
      unionRefs (s2.ports 1).refs = [] ∧
      (pdisconnect s2 (.whole 0) (.whole 1)).1 = some .keyError :=
  disconnect_round_trip wState 0 1 0 1 (.pInt 7) (by decide) rfl rfl rfl rfl rfl rfl
    rfl (by intro kv h; cases h) (by decide)

/-! ### Claim C2: aggregated list inputs read in ascending index order -/

/-- C2: for every list-typed subscriptable input port whose cell is an
aggregator, reading `value` resolves the element backings in ascending
`index` order (some permutation of the aggregator's containers that is
sorted by index) and wraps the list in the declared sequence kind (`list`);
the result is independent of the order in which the indexed connections
were made (any permutation of the aggregator with distinct indices reads
equally), and only the indices present appear. -/
theorem aggregated_value_ordered (s : PState) (L : Nat) (ics : List IterC)
    (htp : (s.ports L).tp = .tList .tTensor)
    (hagg : (s.ports L).cont = .aggr ics) :
    ∃ ics' : List IterC, ics'.Perm ics ∧
      ics'.Pairwise (fun a b => a.index ≤ b.index) ∧
      paramValue s L = (ics'.mapM fun ic => backValue s.heap ic.backing).map PVal.pList ∧
      ∀ ics₂ : List IterC, ics₂.Perm ics → (ics.map IterC.index).Nodup →
        get_ordered s.heap ics₂ = get_ordered s.heap ics := by
  have htrans : ∀ a b c : IterC, decide (a.index ≤ b.index) = true →
      decide (b.index ≤ c.index) = true → decide (a.index ≤ c.index) = true := by
    intro a b c h1 h2
    simp only [decide_eq_true_eq] at *
    omega
  have htotal : ∀ a b : IterC,
      (decide (a.index ≤ b.index) || decide (b.index ≤ a.index)) = true := by
    intro a b
    simp only [Bool.or_eq_true, decide_eq_true_eq]
    omega
  have hsorted : ∀ l : List IterC,
      (l.mergeSort fun a b => decide (a.index ≤ b.index)).Pairwise
        (fun a b => a.index ≤ b.index) := by
    intro l
    have h := List.sorted_mergeSort htrans htotal l
    exact h.imp fun hab => by simpa using hab
  have hkey : ∀ l₁ l₂ : List IterC, l₁.Perm l₂ → (l₁.map IterC.index).Nodup →
      l₁.Pairwise (fun a b => a.index ≤ b.index) →
      l₂.Pairwise (fun a b => a.index ≤ b.index) → l₁ = l₂ := by
    intro l₁ l₂ hperm hnd h1 h2
    have hlt₁ : l₁.Pairwise fun a b => a.index < b.index := by
      have hne : l₁.Pairwise fun a b => a.index ≠ b.index := List.pairwise_map.mp hnd
      exact (h1.and hne).imp fun h => Nat.lt_of_le_of_ne h.1 h.2
    have hlt₂ : l₂.Pairwise fun a b => a.index < b.index := by
      have hnd₂ : (l₂.map IterC.index).Nodup := (hperm.map IterC.index).nodup_iff.mp hnd
      have hne₂ : l₂.Pairwise fun a b => a.index ≠ b.index := List.pairwise_map.mp hnd₂
      exact (h2.and hne₂).imp fun h => Nat.lt_of_le_of_ne h.1 h.2
    exact @List.eq_of_perm_of_sorted IterC (fun a b => a.index < b.index)
      ⟨fun a b ha hb => absurd hb (Nat.lt_asymm ha)⟩ l₁ l₂ hperm hlt₁ hlt₂
  refine ⟨ics.mergeSort fun a b => decide (a.index ≤ b.index),
    List.mergeSort_perm _ _, hsorted ics, ?_, ?_⟩
  · have hopt : ∀ x : Option (List PVal),
        (x.bind fun vs => originApply (.tList .tTensor) vs) = x.map PVal.pList := by
      intro x
      cases x <;> simp [originApply]
    simp only [paramValue, hagg, htp, get_ordered]
    exact hopt _
  · intro ics₂ hperm hnd
    have hnd₂ : (ics₂.map IterC.index).Nodup := (hperm.map IterC.index).nodup_iff.mpr hnd
    have hms : (ics₂.mergeSort fun a b => decide (a.index ≤ b.index)) =
        (ics.mergeSort fun a b => decide (a.index ≤ b.index)) := by
      refine hkey _ _ ?_ ?_ (hsorted ics₂) (hsorted ics)
      · exact ((List.mergeSort_perm ics₂ _).trans hperm).trans
          (List.mergeSort_perm ics _).symm
      · exact ((List.mergeSort_perm ics₂ _).map IterC.index).nodup_iff.mpr hnd₂
    unfold get_ordered
    rw [hms]

/-- A pair of tensor producers and one list-of-tensor consumer port. -/
def tensorState : PState :=
  { ports := fun p =>
      if p = 5 then ⟨.tList .tTensor, .cell 5, []⟩ else ⟨.tTensor, .cell p, []⟩,
    heap := fun c =>
      if c = 6 then .pTensor 61 else if c = 7 then .pTensor 71 else .noValue,
    events := fun _ => false, nextCell := 100, nextEvent := 0 }

/-- The state after wiring producer 6 into slot 1 and producer 7 into
slot 0 of the list port 5 (so the aggregator was genuinely built by two
indexed connects, in this order). -/
def tensorState2 : PState :=
  runOps tensorState [.conn 6 none 5 (some 1), .conn 7 none 5 (some 0)]

/-! ### Claim C3: single-edge rendezvous ordering -/

/-- Inductive invariant of the single-edge rendezvous system. -/
def RInv (s : RS) : Prop :=
  s.reads ≤ s.writes ∧ s.writes ≤ s.reads + 1 ∧ s.writes ≤ 3 ∧ s.reads ≤ 3 ∧
  (s.sent = true ↔ s.writes = s.reads + 1) ∧
  (s.consumed = true ↔ (s.writes = s.reads ∧ 0 < s.writes)) ∧
  (0 < s.writes → s.cell = s.writes) ∧
  s.received = (List.range s.reads).map (· + 1)

theorem rinv_init : RInv RS.init := by
  simp [RInv, RS.init]

theorem rinv_step {a b : RS} (h : RInv a) (hs : RStep a b) : RInv b := by
  cases hs with
  | prodStep h3 hw =>
    obtain ⟨h1, h2, hw3, hr3, h5, h6, h7, h8⟩ := h
    have hwr : a.writes = a.reads := by
      rcases hw with hw | hw
      · omega
      · exact (h6.mp hw).1
    refine ⟨?_, ?_, ?_, ?_, ?_, ?_, ?_, h8⟩
    · show a.reads ≤ a.writes + 1
      omega
    · show a.writes + 1 ≤ a.reads + 1
      omega
    · show a.writes + 1 ≤ 3
      omega
    · show a.reads ≤ 3
      omega
    · show true = true ↔ a.writes + 1 = a.reads + 1
      simp only [true_iff]
      omega
    · show false = true ↔ a.writes + 1 = a.reads ∧ 0 < a.writes + 1
      simp only [Bool.false_eq_true, false_iff]
      omega
    · intro _
      rfl
  | consStep h3 hsent =>
    obtain ⟨h1, h2, hw3, hr3, h5, h6, h7, h8⟩ := h
    have hwr : a.writes = a.reads + 1 := h5.mp hsent
    refine ⟨?_, ?_, ?_, ?_, ?_, ?_, ?_, ?_⟩
    · show a.reads + 1 ≤ a.writes
      omega
    · show a.writes ≤ a.reads + 1 + 1
      omega
    · show a.writes ≤ 3
      omega
    · show a.reads + 1 ≤ 3
      omega
    · show false = true ↔ a.writes = a.reads + 1 + 1
      simp only [Bool.false_eq_true, false_iff]
      omega
    · show true = true ↔ a.writes = a.reads + 1 ∧ 0 < a.writes
      simp only [true_iff]
      omega
    · intro _
      exact h7 (by omega)
    · have hcell : a.cell = a.writes := h7 (by omega)
      show a.received ++ [a.cell] = (List.range (a.reads + 1)).map (· + 1)
      rw [h8, hcell, hwr, List.range_succ, List.map_append]
      simp

theorem rreach_inv (s : RS) (h : RReach s) : RInv s := by
  induction h with
  | init => exact rinv_init
  | step _ hst ih => exact rinv_step ih hst

/-- C3: in every reachable state of the single-edge rendezvous, at most one
undelivered value is outstanding (`writes ≤ reads + 1`), the values the
receives returned are exactly `1, ..., reads` in order (so after the three
receives the consumer obtained `1, 2, 3`), while a value is outstanding the
producer cannot perform another send write-phase (it is suspended until the
matching receive completes), and a completing receive returns exactly the
value the producer most recently wrote. -/
theorem rendezvous_in_order (s : RS) (h : RReach s) :
    s.writes ≤ s.reads + 1 ∧
    s.received = (List.range s.reads).map (· + 1) ∧
    (s.reads = 3 → s.received = [1, 2, 3]) ∧
    (s.writes = s.reads + 1 → ∀ t, RStep s t → t.writes = s.writes) ∧
    (∀ t, RStep s t → t.reads = s.reads + 1 →
      t.received = s.received ++ [s.writes]) := by
  obtain ⟨h1, h2, hw3, hr3, h5, h6, h7, h8⟩ := rreach_inv s h
  refine ⟨h2, h8, ?_, ?_, ?_⟩
  · intro hr
    rw [h8, hr]
    rfl
  · intro hww t hst
    cases hst with
    | prodStep h3 hw =>
      rcases hw with hw | hw
      · omega
      · have := (h6.mp hw).1
        omega
    | consStep h3 hsent => rfl
  · intro t hst hreads
    cases hst with
    | prodStep h3 hw =>
      exfalso
      have : s.reads = s.reads + 1 := hreads
      omega
    | consStep h3 hsent =>
      have hcell : s.cell = s.writes := h7 (by have := h5.mp hsent; omega)
      show s.received ++ [s.cell] = s.received ++ [s.writes]
      rw [hcell]

/-- A state one producer step after the initial state. -/
def rsMid : RS := ⟨1, true, false, 1, 0, []⟩

/-- C3 (witness): the guarantees at the reachable state `rsMid`. -/
theorem rendezvous_in_order_witness :
    rsMid.writes ≤ rsMid.reads + 1 ∧
    rsMid.received = (List.range rsMid.reads).map (· + 1) ∧
    (rsMid.reads = 3 → rsMid.received = [1, 2, 3]) ∧
    (rsMid.writes = rsMid.reads + 1 → ∀ t, RStep rsMid t → t.writes = rsMid.writes) ∧
    (∀ t, RStep rsMid t → t.reads = rsMid.reads + 1 →
      t.received = rsMid.received ++ [rsMid.writes]) :=
  rendezvous_in_order rsMid
    (RReach.step RReach.init (RStep.prodStep RS.init (by decide) (Or.inl rfl)))

/-! ### Claim C4: edge references are stored symmetrically -/

/-- Per-slot reference sets contain pairwise key-distinct elements (they
model Python sets keyed by `(param, index)`). -/
def RefsNodup (s : PState) : Prop :=
  ∀ a k, (alGet (s.ports a).refs k).Pairwise fun r r' => keyEq r r' = false

/-- Symmetry: every stored reference has, on the port it targets and under
the key it targets, a reference pointing back that carries the identical
`sent` and `consumed` event objects. -/
def Sym (s : PState) : Prop :=
  ∀ a k r, r ∈ alGet (s.ports a).refs k →
    ∃ se ce, r.sent = some se ∧ r.consumed = some ce ∧
      Ref.mk a k (some se) (some ce) ∈ alGet (s.ports r.param).refs r.index

/-- The reference-graph invariant of the connection algebra. -/
def RefInv (s : PState) : Prop := RefsNodup s ∧ Sym s

theorem refInv_congr {s s' : PState}
    (h : ∀ p, (s'.ports p).refs = (s.ports p).refs) (hi : RefInv s) : RefInv s' := by
  obtain ⟨hnd, hsym⟩ := hi
  constructor
  · intro a k
    rw [h]
    exact hnd a k
  · intro a k r hr
    rw [h] at hr
    obtain ⟨se, ce, h1, h2, h3⟩ := hsym a k r hr
    exact ⟨se, ce, h1, h2, by rw [h]; exact h3⟩

/-- The per-slot lookup after the refs update of a connect. -/
theorem uRA_alGet (s : PState) (o : Nat) (oi : Option Nat) (d : Nat) (di : Option Nat)
    (a : Nat) (k : Option Nat) :
    alGet ((updateReferencesAdd s o oi d di).ports a).refs k =
      if a = d ∧ k = di then
        refsAdd (if d = o ∧ di = oi
          then refsAdd (alGet (s.ports o).refs oi)
            ⟨d, di, some (s.nextEvent + 1), some s.nextEvent⟩
          else alGet (s.ports d).refs di)
          ⟨o, oi, some (s.nextEvent + 1), some s.nextEvent⟩
      else if a = o ∧ k = oi then
        refsAdd (alGet (s.ports o).refs oi)
          ⟨d, di, some (s.nextEvent + 1), some s.nextEvent⟩
      else alGet (s.ports a).refs k := by
  rw [updateReferencesAdd_refs]
  by_cases had : a = d
  · subst had
    by_cases hkd : k = di
    · subst hkd
      by_cases hao : a = o
      · subst hao
        by_cases hko : k = oi
        · subst hko
          simp [alGet_alUpdate]
        · simp [alGet_alUpdate, hko]
      · simp [alGet_alUpdate, hao]
    · by_cases hao : a = o
      · subst hao
        by_cases hko : k = oi
        · subst hko
          simp [alGet_alUpdate, hkd]
        · simp [alGet_alUpdate, hkd, hko]
      · simp [alGet_alUpdate, hkd, hao]
  · by_cases hao : a = o
    · subst hao
      by_cases hko : k = oi
      · subst hko
        simp [alGet_alUpdate, had]
      · simp [alGet_alUpdate, had, hko]
    · simp [had, hao]

/-- A connect's refs update preserves the invariant when the destination
slot is empty (which the fan-in guard ensures). -/
theorem refInv_updateAdd (s : PState) (o : Nat) (oi : Option Nat) (d : Nat)
    (di : Option Nat) (hinv : RefInv s)
    (hempty : alGet (s.ports d).refs di = []) :
    RefInv (updateReferencesAdd s o oi d di) := by
  obtain ⟨hnd, hsym⟩ := hinv
  have hnostale : hasKey (alGet (s.ports o).refs oi)
      ⟨d, di, some (s.nextEvent + 1), some s.nextEvent⟩ = false := by
    apply hasKey_false_iff.mpr
    intro y hy
    by_contra hcon
    have hk : keyEq y ⟨d, di, some (s.nextEvent + 1), some s.nextEvent⟩ = true :=
      Bool.of_not_eq_false hcon
    obtain ⟨se, ce, -, -, hback⟩ := hsym o oi y hy
    have h1 : y.param = d := keyEq_param hk
    have h2 : y.index = di := by
      simp only [keyEq, decide_eq_true_eq] at hk
      exact hk.2
    rw [h1, h2, hempty] at hback
    cases hback
  by_cases halias : d = o ∧ di = oi
  · obtain ⟨hdo, hio⟩ := halias
    subst hdo
    subst hio
    have hlist : ∀ x y, alGet ((updateReferencesAdd s d di d di).ports x).refs y =
        if x = d ∧ y = di
        then [⟨d, di, some (s.nextEvent + 1), some s.nextEvent⟩]
        else alGet (s.ports x).refs y := by
      intro x y
      rw [uRA_alGet]
      by_cases h1 : x = d ∧ y = di
      · obtain ⟨hx, hy⟩ := h1
        subst hx
        subst hy
        simp [hempty, refsAdd, hasKey, keyEq]
      · simp [h1]
    constructor
    · intro a k
      rw [hlist]
      split_ifs
      · exact List.pairwise_singleton _ _
      · exact hnd a k
    · intro a k r hr
      rw [hlist] at hr
      split_ifs at hr with h1
      · obtain ⟨ha, hk⟩ := h1
        have hr' := List.mem_singleton.mp hr
        subst hr'
        refine ⟨s.nextEvent + 1, s.nextEvent, rfl, rfl, ?_⟩
        rw [hlist]
        subst ha
        subst hk
        simp
      · obtain ⟨se, ce, hse, hce, hback⟩ := hsym a k r hr
        refine ⟨se, ce, hse, hce, ?_⟩
        rw [hlist]
        split_ifs with h2
        · exfalso
          obtain ⟨hp, hq⟩ := h2
          rw [hp, hq, hempty] at hback
          cases hback
        · exact hback
  · have hlist : ∀ x y, alGet ((updateReferencesAdd s o oi d di).ports x).refs y =
        if x = d ∧ y = di
        then [⟨o, oi, some (s.nextEvent + 1), some s.nextEvent⟩]
        else if x = o ∧ y = oi
        then ⟨d, di, some (s.nextEvent + 1), some s.nextEvent⟩ ::
          alGet (s.ports o).refs oi
        else alGet (s.ports x).refs y := by
      intro x y
      rw [uRA_alGet]
      by_cases h1 : x = d ∧ y = di
      · rw [if_pos h1, if_pos h1, if_neg halias, hempty]
        simp [refsAdd, hasKey]
      · rw [if_neg h1, if_neg h1]
        by_cases h2 : x = o ∧ y = oi
        · rw [if_pos h2, if_pos h2]
          simp [refsAdd, hnostale]
        · rw [if_neg h2, if_neg h2]
    constructor
    · intro a k
      rw [hlist]
      split_ifs with h1 h2
      · exact List.pairwise_singleton _ _
      · refine List.Pairwise.cons ?_ (hnd o oi)
        intro y hy
        rw [keyEq_comm]
        exact hasKey_false_iff.mp hnostale y hy
      · exact hnd a k
    · intro a k r hr
      rw [hlist] at hr
      split_ifs at hr with h1 h2
      · obtain ⟨ha, hk⟩ := h1
        have hr' := List.mem_singleton.mp hr
        subst hr'
        refine ⟨s.nextEvent + 1, s.nextEvent, rfl, rfl, ?_⟩
        rw [hlist]
        have hno : ¬(o = d ∧ oi = di) := fun hh => halias ⟨hh.1.symm, hh.2.symm⟩
        rw [if_neg hno, if_pos ⟨rfl, rfl⟩]
        subst ha
        subst hk
        exact List.mem_cons_self _ _
      · obtain ⟨ha, hk⟩ := h2
        subst ha
        subst hk
        rcases List.mem_cons.mp hr with hr' | hrL
        · subst hr'
          refine ⟨s.nextEvent + 1, s.nextEvent, rfl, rfl, ?_⟩
          rw [hlist, if_pos ⟨rfl, rfl⟩]
          simp
        · obtain ⟨se, ce, hse, hce, hback⟩ := hsym a k r hrL
          refine ⟨se, ce, hse, hce, ?_⟩
          rw [hlist]
          split_ifs with h3 h4
          · exfalso
            obtain ⟨hp, hq⟩ := h3
            rw [hp, hq, hempty] at hback
            cases hback
          · obtain ⟨hp, hq⟩ := h4
            rw [hp, hq] at hback
            exact List.mem_cons_of_mem _ hback
          · exact hback
      · obtain ⟨se, ce, hse, hce, hback⟩ := hsym a k r hr
        refine ⟨se, ce, hse, hce, ?_⟩
        rw [hlist]
        split_ifs with h3 h4
        · exfalso
          obtain ⟨hp, hq⟩ := h3
          rw [hp, hq, hempty] at hback
          cases hback
        · obtain ⟨hp, hq⟩ := h4
          rw [hp, hq] at hback
          exact List.mem_cons_of_mem _ hback
        · exact hback

theorem keyEq_true_iff {a b : Ref} :
    keyEq a b = true ↔ a.param = b.param ∧ a.index = b.index := by
  simp [keyEq]

theorem keyEq_false_iff {a b : Ref} :
    keyEq a b = false ↔ ¬(a.param = b.param ∧ a.index = b.index) := by
  simp [keyEq]

theorem bool_tf {b : Bool} (h1 : b = true) (h2 : b = false) : False := by
  rw [h1] at h2
  cases h2

/-- A disconnect's refs update preserves the invariant (also on its error
paths, where the removal is partial). -/
theorem refInv_updateRemove (s : PState) (o : Nat) (oi : Option Nat) (d : Nat)
    (di : Option Nat) (hinv : RefInv s) :
    RefInv (updateReferencesRemove s o oi d di).2 := by
  obtain ⟨hnd, hsym⟩ := hinv
  unfold updateReferencesRemove
  cases hrm1 : refsRemove (alGet (s.ports o).refs oi) ⟨d, di, none, none⟩ with
  | none => exact ⟨hnd, hsym⟩
  | some l1 =>
    simp only []
    have hs1 : ∀ x y, alGet ((modPort s o fun pd =>
        { pd with refs := alUpdate pd.refs oi fun _ => l1 }).ports x).refs y =
        if x = o ∧ y = oi then l1 else alGet (s.ports x).refs y := by
      intro x y
      rw [modRefs_refs]
      by_cases hx : x = o
      · rw [hx, if_pos rfl, alGet_alUpdate]
        by_cases hy : y = oi
        · rw [hy, if_pos rfl, if_pos ⟨rfl, rfl⟩]
        · rw [if_neg hy, if_neg (show ¬(o = o ∧ y = oi) from fun hh => hy hh.2)]
      · rw [if_neg hx, if_neg (show ¬(x = o ∧ y = oi) from fun hh => hx hh.1)]
    have hl1sub : ∀ y ∈ l1, y ∈ alGet (s.ports o).refs oi := refsRemove_sub hrm1
    have hl1pair : l1.Pairwise fun r r' => keyEq r r' = false :=
      refsRemove_pairwise (hnd o oi) hrm1
    have hl1key : ∀ y ∈ l1, keyEq y ⟨d, di, none, none⟩ = false := fun y hy =>
      refsRemove_mem_key_false (hnd o oi) hrm1 hy
    cases hrm2 : refsRemove (alGet ((modPort s o fun pd =>
        { pd with refs := alUpdate pd.refs oi fun _ => l1 }).ports d).refs di)
        ⟨o, oi, none, none⟩ with
    | none =>
      have hnone : ∀ y ∈ alGet ((modPort s o fun pd =>
          { pd with refs := alUpdate pd.refs oi fun _ => l1 }).ports d).refs di,
          keyEq y ⟨o, oi, none, none⟩ = false := refsRemove_eq_none.mp hrm2
      refine ⟨?_, ?_⟩
      · intro a k
        rw [hs1]
        split_ifs
        · exact hl1pair
        · exact hnd a k
      · intro a k r hr
        rw [hs1] at hr
        split_ifs at hr with h1
        · obtain ⟨ha, hk⟩ := h1
          obtain ⟨se, ce, hse, hce, hback⟩ := hsym o oi r (hl1sub r hr)
          refine ⟨se, ce, hse, hce, ?_⟩
          rw [ha, hk, hs1]
          split_ifs with h2
          · obtain ⟨hp, hq⟩ := h2
            rw [hp, hq] at hback
            refine refsRemove_mem_of_not_key hrm1 hback ?_
            refine keyEq_false_iff.mpr ?_
            rintro ⟨hh1, hh2⟩
            have hh1' : o = d := hh1
            have hh2' : oi = di := hh2
            exact bool_tf
              (keyEq_true_iff.mpr ⟨hp.trans hh1', hq.trans hh2'⟩) (hl1key r hr)
          · exact hback
        · obtain ⟨se, ce, hse, hce, hback⟩ := hsym a k r hr
          refine ⟨se, ce, hse, hce, ?_⟩
          rw [hs1]
          split_ifs with h2
          · obtain ⟨hp, hq⟩ := h2
            rw [hp, hq] at hback
            refine refsRemove_mem_of_not_key hrm1 hback ?_
            refine keyEq_false_iff.mpr ?_
            rintro ⟨hh1, hh2⟩
            have hh1' : a = d := hh1
            have hh2' : k = di := hh2
            have hrd : r ∈ alGet ((modPort s o fun pd =>
                { pd with refs := alUpdate pd.refs oi fun _ => l1 }).ports d).refs di := by
              rw [hs1]
              rw [if_neg (show ¬(d = o ∧ di = oi) from
                fun hh => h1 ⟨hh1'.trans hh.1, hh2'.trans hh.2⟩)]
              exact hh1' ▸ hh2' ▸ hr
            exact bool_tf (keyEq_true_iff.mpr ⟨hp, hq⟩) (hnone r hrd)
          · exact hback
    | some l2 =>
      have hslot : alGet ((modPort s o fun pd =>
          { pd with refs := alUpdate pd.refs oi fun _ => l1 }).ports d).refs di =
          if d = o ∧ di = oi then l1 else alGet (s.ports d).refs di := hs1 d di
      have hnotalias : ¬(d = o ∧ di = oi) := by
        rintro ⟨h1', h2'⟩
        rw [hslot, if_pos ⟨h1', h2'⟩] at hrm2
        have hnone2 : refsRemove l1 ⟨o, oi, none, none⟩ = none := by
          refine refsRemove_eq_none.mpr ?_
          intro y hy
          have := hl1key y hy
          rw [h1', h2'] at this
          exact this
        rw [hnone2] at hrm2
        cases hrm2
      rw [hslot, if_neg hnotalias] at hrm2
      have hl2sub : ∀ y ∈ l2, y ∈ alGet (s.ports d).refs di := refsRemove_sub hrm2
      have hl2pair : l2.Pairwise fun r r' => keyEq r r' = false :=
        refsRemove_pairwise (hnd d di) hrm2
      have hl2key : ∀ y ∈ l2, keyEq y ⟨o, oi, none, none⟩ = false := fun y hy =>
        refsRemove_mem_key_false (hnd d di) hrm2 hy
      have hs2 : ∀ x y, alGet ((modPort (modPort s o fun pd =>
          { pd with refs := alUpdate pd.refs oi fun _ => l1 }) d fun pd =>
          { pd with refs := alUpdate pd.refs di fun _ => l2 }).ports x).refs y =
          if x = d ∧ y = di then l2
          else if x = o ∧ y = oi then l1
          else alGet (s.ports x).refs y := by
        intro x y
        rw [modRefs_refs]
        by_cases hx : x = d
        · rw [hx, if_pos rfl, alGet_alUpdate]
          by_cases hy : y = di
          · rw [hy, if_pos rfl, if_pos ⟨rfl, rfl⟩]
          · rw [if_neg hy, hs1,
              if_neg (show ¬(d = d ∧ y = di) from fun hh => hy hh.2)]
        · rw [if_neg hx, hs1,
            if_neg (show ¬(x = d ∧ y = di) from fun hh => hx hh.1)]
      refine ⟨?_, ?_⟩
      · intro a k
        rw [hs2]
        split_ifs
        · exact hl2pair
        · exact hl1pair
        · exact hnd a k
      · intro a k r hr
        rw [hs2] at hr
        split_ifs at hr with h1 h2
        · obtain ⟨ha, hk⟩ := h1
          obtain ⟨se, ce, hse, hce, hback⟩ := hsym d di r (hl2sub r hr)
          refine ⟨se, ce, hse, hce, ?_⟩
          rw [ha, hk, hs2]
          split_ifs with h3 h4
          · obtain ⟨hp, hq⟩ := h3
            rw [hp, hq] at hback
            refine refsRemove_mem_of_not_key hrm2 hback ?_
            refine keyEq_false_iff.mpr ?_
            rintro ⟨hh1, hh2⟩
            have hh1' : d = o := hh1
            have hh2' : di = oi := hh2
            exact hnotalias ⟨hh1', hh2'⟩
          · exfalso
            obtain ⟨hp, hq⟩ := h4
            exact bool_tf (keyEq_true_iff.mpr ⟨hp, hq⟩) (hl2key r hr)
          · exact hback
        · obtain ⟨ha, hk⟩ := h2
          obtain ⟨se, ce, hse, hce, hback⟩ := hsym o oi r (hl1sub r hr)
          refine ⟨se, ce, hse, hce, ?_⟩
          rw [ha, hk, hs2]
          split_ifs with h3 h4
          · exfalso
            obtain ⟨hp, hq⟩ := h3
            exact bool_tf (keyEq_true_iff.mpr ⟨hp, hq⟩) (hl1key r hr)
          · obtain ⟨hp, hq⟩ := h4
            rw [hp, hq] at hback
            refine refsRemove_mem_of_not_key hrm1 hback ?_
            refine keyEq_false_iff.mpr ?_
            rintro ⟨hh1, hh2⟩
            have hh1' : o = d := hh1
            have hh2' : oi = di := hh2
            exact hnotalias ⟨hh1'.symm, hh2'.symm⟩
          · exact hback
        · obtain ⟨se, ce, hse, hce, hback⟩ := hsym a k r hr
          refine ⟨se, ce, hse, hce, ?_⟩
          rw [hs2]
          split_ifs with h3 h4
          · obtain ⟨hp, hq⟩ := h3
            rw [hp, hq] at hback
            refine refsRemove_mem_of_not_key hrm2 hback ?_
            refine keyEq_false_iff.mpr ?_
            rintro ⟨hh1, hh2⟩
            have hh1' : a = o := hh1
            have hh2' : k = oi := hh2
            exact h2 ⟨hh1', hh2'⟩
          · obtain ⟨hp, hq⟩ := h4
            rw [hp, hq] at hback
            refine refsRemove_mem_of_not_key hrm1 hback ?_
            refine keyEq_false_iff.mpr ?_
            rintro ⟨hh1, hh2⟩
            have hh1' : a = d := hh1
            have hh2' : k = di := hh2
            exact h1 ⟨hh1', hh2'⟩
          · exact hback

theorem aggAdd_refs (s : PState) (d : Nat) (x : IterC) (p : Nat) :
    ((aggAdd s d x).ports p).refs = (s.ports p).refs := by
  unfold aggAdd
  split
  · rw [setCont_refs]
  · rw [setCont_refs]

/-- The cell-rewiring cases never touch the reference sets. -/
theorem rewire_refs {s s' : PState} {ori dst : Handle} (h : rewire s ori dst = .ok s') :
    ∀ p, (s'.ports p).refs = (s.ports p).refs := by
  intro p
  cases dst with
  | whole dp =>
    cases ori with
    | whole op =>
      simp only [rewire] at h
      split at h
      · cases h
        rw [setCont_refs]
      · cases h
    | part op ox =>
      simp only [rewire] at h
      split at h
      · cases h
        rw [writeCell_ports]
      · cases h
  | part dp dx =>
    cases ori with
    | whole op =>
      simp only [rewire] at h
      split at h
      · cases h
        rw [aggAdd_refs]
      · cases h
    | part op ox =>
      simp only [rewire] at h
      split at h
      · cases h
        rw [aggAdd_refs]
      · cases h

/-- The cell-restoring half of a disconnect never touches the reference
sets. -/
theorem unwire_refs {s s' : PState} {dst : Handle} (h : unwire s dst = .ok s') :
    ∀ p, (s'.ports p).refs = (s.ports p).refs := by
  intro p
  cases dst with
  | whole dp =>
    simp only [unwire] at h
    split at h
    · cases h
      rw [allocNoValueCell_refs]
    · cases h
  | part dp dx =>
    simp only [unwire] at h
    split at h
    · split at h
      · cases h
        rw [allocNoValueCell_refs]
      · cases h
        rw [setCont_refs]
    · cases h
      rw [allocNoValueCell_refs]

/-- A passing fan-in guard means the destination slot holds no reference. -/
theorem fanIn_empty {s : PState} {dst : Handle} (h : fanInFail s dst = false) :
    alGet (s.ports dst.port).refs dst.hidx = [] := by
  cases dst with
  | whole d =>
    have h0 : unionRefs (s.ports d).refs = [] := by
      have := bne_eq_false_iff_eq.mp h
      simp only [slotRefCount, refCounter] at this
      exact List.length_eq_zero.mp this
    exact alGet_eq_nil_of_unionRefs h0 _
  | part d x =>
    have := bne_eq_false_iff_eq.mp h
    simp only [slotRefCount, refCounter] at this
    exact List.length_eq_zero.mp this

/-- A connect preserves the reference-graph invariant (errors leave the
state untouched; a success adds a symmetric pair of references with fresh
shared events into a slot the fan-in guard proved empty). -/
theorem refInv_pconnect (s : PState) (ori dst : Handle) (h : RefInv s) :
    RefInv (pconnect s ori dst).2 := by
  unfold pconnect
  cases hty : connectTypeCheck s ori dst with
  | some e => exact h
  | none =>
    cases hfan : fanInFail s dst with
    | true => simp only [hfan, if_true]; exact h
    | false =>
      simp only [hfan, Bool.false_eq_true, if_false]
      cases hrw : rewire s ori dst with
      | error e => exact h
      | ok s' =>
        have hrefs := rewire_refs hrw
        have hempty : alGet (s'.ports dst.port).refs dst.hidx = [] := by
          rw [hrefs]
          exact fanIn_empty hfan
        exact refInv_updateAdd s' ori.port ori.hidx dst.port dst.hidx
          (refInv_congr hrefs h) hempty

/-- A disconnect preserves the reference-graph invariant. -/
theorem refInv_pdisconnect (s : PState) (ori dst : Handle) (h : RefInv s) :
    RefInv (pdisconnect s ori dst).2 := by
  unfold pdisconnect
  cases hun : unwire s dst with
  | error e => exact h
  | ok s1 =>
    exact refInv_updateRemove s1 ori.port ori.hidx dst.port dst.hidx
      (refInv_congr (unwire_refs hun) h)

/-- Every operation preserves the reference-graph invariant. -/
theorem refInv_applyOp (s : PState) (op : Op) (h : RefInv s) :
    RefInv (applyOp s op) := by
  cases op with
  | conn o oi d di =>
    cases h1 : mkHandle s o oi with
    | error e =>
      cases h2 : mkHandle s d di <;> simp only [applyOp, h1, h2] <;> exact h
    | ok ho =>
      cases h2 : mkHandle s d di with
      | error e =>
        simp only [applyOp, h1, h2]
        exact h
      | ok hd =>
        simp only [applyOp, h1, h2]
        exact refInv_pconnect s ho hd h
  | disc o oi d di =>
    cases h1 : mkHandle s o oi with
    | error e =>
      cases h2 : mkHandle s d di <;> simp only [applyOp, h1, h2] <;> exact h
    | ok ho =>
      cases h2 : mkHandle s d di with
      | error e =>
        simp only [applyOp, h1, h2]
        exact h
      | ok hd =>
        simp only [applyOp, h1, h2]
        exact refInv_pdisconnect s ho hd h

theorem refInv_runOps (s : PState) (h : RefInv s) (ops : List Op) :
    RefInv (runOps s ops) := by
  induction ops generalizing s with
  | nil => exact h
  | cons op rest ih => exact ih _ (refInv_applyOp s op h)

/-- C4: starting from any state whose reference graph is symmetric with
per-slot key-distinct reference sets (in particular a freshly built graph
with no references), after any sequence of connect/disconnect operations
every stored edge reference has, on the port and key it targets, a
reference pointing back at it that carries the identical `sent` and
`consumed` event objects. -/
theorem refs_symmetric_after_ops (s : PState) (h : RefInv s) (ops : List Op) :
    ∀ a k r, r ∈ alGet ((runOps s ops).ports a).refs k →
      ∃ se ce, r.sent = some se ∧ r.consumed = some ce ∧
        Ref.mk a k (some se) (some ce) ∈
          alGet ((runOps s ops).ports r.param).refs r.index :=
  (refInv_runOps s h ops).2

theorem wState_refs_nil (a : Nat) : (wState.ports a).refs = [] := by
  unfold wState
  dsimp only
  split_ifs <;> rfl

theorem wState_refInv : RefInv wState := by
  constructor
  · intro a k
    rw [wState_refs_nil]
    exact List.Pairwise.nil
  · intro a k r hr
    rw [wState_refs_nil] at hr
    cases hr

/-- C4 (witness): after `0 >> 1` on the concrete graph, the reference
stored on the input port 1 has its symmetric counterpart on port 0 with
the same event ids. -/
theorem refs_symmetric_after_ops_witness :
    ∃ se ce, (Ref.mk 0 none (some 1) (some 0)).sent = some se ∧
      (Ref.mk 0 none (some 1) (some 0)).consumed = some ce ∧
      Ref.mk 1 none (some se) (some ce) ∈
        alGet ((runOps wState [Op.conn 0 none 1 none]).ports
          (Ref.mk 0 none (some 1) (some 0)).param).refs
          (Ref.mk 0 none (some 1) (some 0)).index :=
  refs_symmetric_after_ops wState wState_refInv [Op.conn 0 none 1 none] 1 none
    (Ref.mk 0 none (some 1) (some 0)) (by decide)

/-- C2 (witness): the element-wise-fed list port of `tensorState2`. -/
theorem aggregated_value_ordered_witness :
    ∃ ics' : List IterC,
      ics'.Perm [⟨.cont (.heapCell 6), 1⟩, ⟨.cont (.heapCell 7), 0⟩] ∧
      ics'.Pairwise (fun a b => a.index ≤ b.index) ∧
      paramValue tensorState2 5 =
        (ics'.mapM fun ic => backValue tensorState2.heap ic.backing).map PVal.pList ∧
      ∀ ics₂ : List IterC,
        ics₂.Perm [⟨.cont (.heapCell 6), 1⟩, ⟨.cont (.heapCell 7), 0⟩] →
        (([⟨.cont (.heapCell 6), 1⟩, ⟨.cont (.heapCell 7), 0⟩] :
          List IterC).map IterC.index).Nodup →
        get_ordered tensorState2.heap ics₂ =
          get_ordered tensorState2.heap
            [⟨.cont (.heapCell 6), 1⟩, ⟨.cont (.heapCell 7), 0⟩] :=
  aggregated_value_ordered tensorState2 5
    [⟨.cont (.heapCell 6), 1⟩, ⟨.cont (.heapCell 7), 0⟩] rfl rfl

end Limbus
